import Mathlib

/-
Verification of the Eulerian-circuit functions of Graph-Circuit-Codes
(src/Eulerian-Circuit-functions.py).

The graph data model follows the NetworkX undirected simple graph used by
the source: an adjacency association list from a node to its neighbour
list, in insertion order.  Mutation (Variant 1's remove_edge) is explicit
state passing; a Python exception is an explicit error value; the loops
carry explicit fuel, and we prove the fuel is never exhausted.
-/

namespace EulerVerif

/-- An undirected edge as a normalized ordered pair (small component first).
Models a Python two-element set such as the entries of Variant 3's seen list. -/
def upair (a b : Nat) : Nat × Nat := if a ≤ b then (a, b) else (b, a)

/-- The NetworkX-style graph: adjacency association list, node order =
insertion order, each node mapped to its neighbour list in insertion order. -/
structure Graph where
  adj : List (Nat × List Nat)
deriving DecidableEq

/-- First-match association-list lookup (models Python dict access on the
adjacency dict, whose keys are unique). -/
def lookup' : List (Nat × List Nat) → Nat → Option (List Nat)
  | [], _ => none
  | (k, v) :: rest, x => if k = x then some v else lookup' rest x

/-- The node list of the graph, in insertion order (models list(G.nodes)). -/
def keys (G : Graph) : List Nat := G.adj.map Prod.fst

/-- Neighbour-list lookup; none models a KeyError / nbunch error on a
missing node. -/
def nbr? (G : Graph) (v : Nat) : Option (List Nat) := lookup' G.adj v

/-- Neighbour list with default empty (used where the node is known present). -/
def nbr (G : Graph) (v : Nat) : List Nat := (nbr? G v).getD []

/-- Degree of a vertex (len(list(G[v]))). -/
def degree (G : Graph) (v : Nat) : Nat := (nbr G v).length

/-- Every undirected edge as a normalized pair, each edge listed once per
incident adjacency entry (so normally twice). -/
def edgeList (G : Graph) : List (Nat × Nat) :=
  G.adj.flatMap (fun p => p.2.map (fun w => upair p.1 w))

/-- The edge set of the graph. -/
def edges (G : Graph) : Finset (Nat × Nat) := (edgeList G).toFinset

/-- models G.remove_edge(u, w): delete w from u's adjacency and u from w's. -/
def removeEdge (G : Graph) (u w : Nat) : Graph :=
  ⟨G.adj.map (fun p =>
      if p.1 = u then (p.1, p.2.erase w)
      else if p.1 = w then (p.1, p.2.erase u) else p)⟩

/-- Well-formedness of the NetworkX graph representation: unique nodes,
duplicate-free neighbour lists, no self loops, symmetric adjacency into
the node set. -/
def wfB (G : Graph) : Prop :=
  (keys G).Nodup ∧
  ∀ p ∈ G.adj, p.2.Nodup ∧ p.1 ∉ p.2 ∧ ∀ w ∈ p.2, w ∈ keys G ∧ p.1 ∈ nbr G w

instance (G : Graph) : Decidable (wfB G) := by
  unfold wfB; infer_instance

/-- One-step adjacency relation of the graph. -/
def Adj (G : Graph) (a b : Nat) : Prop := b ∈ nbr G a

/-- Reachability in the graph (reflexive-transitive closure of adjacency). -/
def ReachG (G : Graph) : Nat → Nat → Prop := Relation.ReflTransGen (Adj G)

/-- Reachability inside a set of remaining undirected edges. -/
def ReachE (R : Finset (Nat × Nat)) : Nat → Nat → Prop :=
  Relation.ReflTransGen (fun u v => upair u v ∈ R)

/-- Degree of a vertex with respect to a set of (normalized) edges. -/
def degE (R : Finset (Nat × Nat)) (x : Nat) : Nat :=
  (R.filter (fun e => e.1 = x ∨ e.2 = x)).card

/-- Consecutive pairs of a vertex sequence, as normalized unordered pairs. -/
def pairsL : List Nat → List (Nat × Nat)
  | a :: b :: t => upair a b :: pairsL (b :: t)
  | _ => []

/-- Sum of adjacency-list lengths (twice the edge count for a symmetric graph). -/
def adjSize (G : Graph) : Nat := (G.adj.map (fun p => p.2.length)).sum

/- ------------------------------------------------------------------
Connectivity and the Eulerian test (semantics of nx.is_connected and
nx.is_eulerian, the library guards called by the three builders).
------------------------------------------------------------------ -/

/-- One breadth step of the component computation. -/
def expand (G : Graph) (S : List Nat) : List Nat :=
  (S ++ S.flatMap (nbr G)).dedup

/-- The connected component of v0, as computed by iterating expansion
|V| times (a fixpoint is reached within that many rounds). -/
def compList (G : Graph) (v0 : Nat) : List Nat :=
  (expand G)^[(keys G).length] [v0]

/-- Models nx.is_connected for a graph with at least one node: the
breadth-first component of the first node covers all nodes. -/
def connB (G : Graph) : Bool :=
  decide ((compList G ((keys G).headI)).length = (keys G).length)

/-- Models nx.is_eulerian: all degrees even and the graph connected.
none models the exception nx.is_connected raises on a graph with no
nodes; the builders propagate that exception. -/
def isEulerianB (G : Graph) : Option Bool :=
  if keys G = [] then none
  else some (decide (∀ v ∈ keys G, Even (degree G v)) && connB G)

/- ------------------------------------------------------------------
The shared Hierholzer loop skeleton.  The stack is kept top-first, the
circuit is appended on pop exactly as in the source.  A step either
fails (a Python exception), pops, or pushes a chosen neighbour while
consuming one edge in the variant's tracker state.
------------------------------------------------------------------ -/

/-- Result of querying the top of the stack in one loop iteration. -/
inductive Step (σ : Type) where
  | fail : Step σ
  | pop : Step σ
  | push : Nat → σ → Step σ

/-- Result of running the fueled loop. -/
inductive LRes (σ : Type) where
  | out : LRes σ
  | exn : σ → LRes σ
  | done : σ → List Nat → LRes σ

/-- The common while-stack loop of the three circuit builders. -/
def hloop {σ : Type} (step : σ → Nat → Step σ) :
    Nat → σ → List Nat → List Nat → LRes σ
  | 0, _, _, _ => .out
  | fuel + 1, st, stack, circuit =>
    match stack with
    | [] => .done st circuit
    | cur :: rest =>
      match step st cur with
      | .fail => .exn st
      | .pop => hloop step fuel st rest (circuit ++ [cur])
      | .push w st' => hloop step fuel st' (w :: cur :: rest) circuit

/-- Result of a circuit builder: dnf is the fuel artifact (proved
unreachable), exn a Python exception with the graph state at the raise,
ret the Python return value together with the final graph state. -/
inductive R1 where
  | dnf : R1
  | exn : Graph → R1
  | ret : Graph → Option (List Nat) → R1
deriving DecidableEq

/- ---------------- Variant 1 (destructive) ---------------- -/

/-- One iteration body of Eulerian_circuit_1: list the edges at the
current vertex (exception if the vertex is absent), take the last one,
remove it from the graph and push its far endpoint; pop when exhausted. -/
def step1 (G : Graph) (cur : Nat) : Step Graph :=
  match nbr? G cur with
  | none => .fail
  | some ns =>
    match ns.getLast? with
    | none => .pop
    | some w => .push w (removeEdge G cur w)

/-- Fuel bound for Variant 1. -/
def fuel1 (G : Graph) : Nat := 2 * adjSize G + 2

/-- Eulerian_circuit_1. -/
def euler1 (G : Graph) : R1 :=
  match isEulerianB G with
  | none => .exn G
  | some false => .ret G none
  | some true =>
    match hloop step1 (fuel1 G) G [0] [] with
    | .out => .dnf
    | .exn G' => .exn G'
    | .done G' c => .ret G' (some c)

/- ---------------- Variant 2 (adjacency matrix) ---------------- -/

/-- Matrix entry (out of range reads as 0; in-range positions are the
only ones the algorithm ever visits). -/
def getE (M : List (List Bool)) (i j : Nat) : Bool := ((M.getD i []).getD j false)

/-- Set one matrix entry to 0. -/
def setE (M : List (List Bool)) (i j : Nat) : List (List Bool) :=
  M.set i ((M.getD i []).set j false)

/-- Clear both mirror entries of one edge (F[cur][w] = 0; F[w][cur] = 0). -/
def clear2 (M : List (List Bool)) (cur w : Nat) : List (List Bool) :=
  setE (setE M cur w) w cur

/-- Index of the first nonzero entry of a row (np.nonzero(row)[0][0]);
none when the row is all zero (row.any() is false). -/
def firstTrue : List Bool → Option Nat
  | [] => none
  | b :: t => if b then some 0 else (firstTrue t).map (· + 1)

/-- One iteration body of Eulerian_circuit_2: if the current row has any
nonzero entry take the first one (np.nonzero(...)[0][0]), zero the two
mirror entries and push the column index; pop when the row is zero. -/
def step2 (M : List (List Bool)) (cur : Nat) : Step (List (List Bool)) :=
  match firstTrue (M.getD cur []) with
  | none => .pop
  | some w => .push w (clear2 M cur w)

/-- The dense adjacency matrix of the graph in node order
(nx.adjacency_matrix(G).todense()). -/
def buildMatrix (G : Graph) : List (List Bool) :=
  (keys G).map (fun v => (keys G).map (fun w => decide (w ∈ nbr G v)))

/-- Number of nonzero matrix entries. -/
def totalTrue (M : List (List Bool)) : Nat :=
  (M.map (fun row => row.countP (fun b => b))).sum

/-- Fuel bound for Variant 2. -/
def fuel2 (M : List (List Bool)) : Nat := 2 * totalTrue M + 2

/-- Eulerian_circuit_2.  The graph itself is only read (to build the
matrix); the returned graph state is the unchanged input. -/
def euler2 (G : Graph) : R1 :=
  match isEulerianB G with
  | none => .exn G
  | some false => .ret G none
  | some true =>
    match hloop step2 (fuel2 (buildMatrix G)) (buildMatrix G) [0] [] with
    | .out => .dnf
    | .exn _ => .exn G
    | .done _ c => .ret G (some c)

/- ---------------- Variant 3 (seen-edge list) ---------------- -/

/-- One iteration body of Eulerian_circuit_3: list the unseen incident
edges in neighbour order (KeyError if the vertex is absent), take the
first, record it in seen and push its far endpoint; pop when exhausted. -/
def step3 (G : Graph) (seen : List (Nat × Nat)) (cur : Nat) :
    Step (List (Nat × Nat)) :=
  match nbr? G cur with
  | none => .fail
  | some ns =>
    match ns.filter (fun nb => decide (upair cur nb ∉ seen)) with
    | [] => .pop
    | nb :: _ => .push nb (seen ++ [upair cur nb])

/-- Fuel bound for Variant 3. -/
def fuel3 (G : Graph) : Nat := 2 * (edges G).card + 2

/-- Eulerian_circuit_3.  The graph is only read; the returned graph
state is the unchanged input. -/
def euler3 (G : Graph) : R1 :=
  match isEulerianB G with
  | none => .exn G
  | some false => .ret G none
  | some true =>
    match hloop (step3 G) (fuel3 G) [] [0] [] with
    | .out => .dnf
    | .exn _ => .exn G
    | .done _ c => .ret G (some c)

/- ---------------- all_positive_degree_vertices_connected ---------------- -/

/-- The positive-degree vertices, in node order. -/
def posDeg (G : Graph) : List Nat :=
  (keys G).filter (fun v => decide (0 < degree G v))

/-- The breadth-first loop of all_positive_degree_vertices_connected:
pop the queue front; if unseen, mark it and enqueue all its neighbours. -/
def bfsLoop (G : Graph) : Nat → List Nat → Finset Nat → Option (Finset Nat)
  | 0, _, _ => none
  | fuel + 1, queue, seen =>
    match queue with
    | [] => some seen
    | cur :: rest =>
      if cur ∈ seen then bfsLoop G fuel rest seen
      else bfsLoop G fuel (rest ++ nbr G cur) (insert cur seen)

/-- Fuel bound for the breadth-first loop. -/
def bfsFuel (G : Graph) : Nat := 2 + (keys G).length + adjSize G

/-- all_positive_degree_vertices_connected.  none models the IndexError
raised by pos_deg[0] on a graph with no positive-degree vertex. -/
def apdvc (G : Graph) : Option Bool :=
  match posDeg G with
  | [] => none
  | u :: _ =>
    match bfsLoop G (bfsFuel G) [u] ∅ with
    | none => none
    | some seen => some (decide (seen.card = (posDeg G).length))

/- ---------------- Concrete graphs used in the claims ---------------- -/

/-- A triangle on vertices 1, 2, 3 (an Eulerian graph without vertex 0),
as built by nx.Graph([(1,2),(2,3),(3,1)]). -/
def tri123 : Graph := ⟨[(1, [2, 3]), (2, [1, 3]), (3, [2, 1])]⟩

/-- A triangle on vertices 0, 1, 2, as built by nx.Graph([(0,1),(1,2),(2,0)]). -/
def tri012 : Graph := ⟨[(0, [1, 2]), (1, [0, 2]), (2, [1, 0])]⟩

/-- The source's example graph G3, edges 0-1, 1-2, 2-3, 3-4, 4-1, 1-5, 5-0. -/
def G3ex : Graph :=
  ⟨[(0, [1, 5]), (1, [0, 2, 4, 5]), (2, [1, 3]), (3, [2, 4]),
    (4, [3, 1]), (5, [1, 0])]⟩

/-- A path 0 - 1 (two odd-degree vertices: not Eulerian). -/
def path01 : Graph := ⟨[(0, [1]), (1, [0])]⟩

/-- Two isolated vertices (no positive-degree vertex). -/
def iso2 : Graph := ⟨[(0, []), (1, [])]⟩

/- ------------------------------------------------------------------
Definitions used by the loop-invariant proofs.
------------------------------------------------------------------ -/

/-- The pending junction edge between the last circuit entry and the
anchor vertex (the stack top at the time of the last pop). -/
def junc (circuit : List Nat) (a : Nat) : Multiset (Nat × Nat) :=
  match circuit.getLast? with
  | none => 0
  | some l => {upair l a}

/-- The set of edges still present in an adjacency matrix. -/
def remM (M : List (List Bool)) : Finset (Nat × Nat) :=
  ((List.range M.length).flatMap (fun i =>
    ((List.range M.length).filter (fun j => getE M i j)).map
      (fun j => upair i j))).toFinset

/-- The edges of the graph not yet recorded in Variant 3's seen list. -/
def rem3 (G : Graph) (seen : List (Nat × Nat)) : Finset (Nat × Nat) :=
  edges G \ seen.toFinset

/-- The i-th node of the graph in node order. -/
def nodeAt (G : Graph) (i : Nat) : Nat := (keys G).getD i 0

/-- The matrix is n by n. -/
def sqMat (n : Nat) (M : List (List Bool)) : Prop :=
  M.length = n ∧ ∀ row ∈ M, row.length = n

/-- The matrix is symmetric with zero diagonal. -/
def symMat (M : List (List Bool)) : Prop :=
  (∀ i j, getE M i j = getE M j i) ∧ ∀ i, getE M i i = false

/-- The state predicate for Variant 1: the graph stays well-formed with
an unchanged node list. -/
def P1 (G0 : Graph) (st : Graph) : Prop := wfB st ∧ keys st = keys G0

/-- The state predicate for Variant 3: the seen list stays duplicate-free
and inside the edge set. -/
def P3 (G : Graph) (seen : List (Nat × Nat)) : Prop :=
  seen.Nodup ∧ ∀ e ∈ seen, e ∈ edges G

/-- The loop invariant of the Hierholzer skeleton, parameterized by the
variant's state predicate P and remaining-edge abstraction rem; a is the
anchor: the stack top at the time of the last pop (the start vertex v0
before the first pop). -/
def Inv {σ : Type} (P : σ → Prop) (rem : σ → Finset (Nat × Nat))
    (V : Finset Nat) (E0 : Finset (Nat × Nat)) (v0 : Nat)
    (st : σ) (stack circuit : List Nat) (a : Nat) : Prop :=
  P st ∧ rem st ⊆ E0 ∧ stack ≠ [] ∧ stack.getLast? = some v0 ∧
  (∀ x ∈ stack, x ∈ V) ∧ (∀ x ∈ circuit, x ∈ V) ∧ a ∈ V ∧
  (circuit = [] → a = v0) ∧
  (circuit ≠ [] → circuit.head? = some v0) ∧
  ((pairsL circuit : Multiset (Nat × Nat)) + (pairsL stack : Multiset (Nat × Nat)) +
      junc circuit a = (E0 \ rem st).val) ∧
  (∀ x, Odd (degE (rem st) x) ↔
      ((stack.head? = some x ∨ x = a) ∧ stack.head? ≠ some a))

/-- Connectivity invariant: every vertex still carrying an edge can reach
some stack vertex through the remaining edges. -/
def ConnInv {σ : Type} (rem : σ → Finset (Nat × Nat))
    (st : σ) (stack : List Nat) : Prop :=
  ∀ x, 0 < degE (rem st) x → ∃ y ∈ stack, ReachE (rem st) x y

/-- What the spec requires of a returned circuit C for a graph with edge
set E: C closes up, len(C) = number of edges + 1, and the consecutive
pairs of C are exactly E, each edge once in either orientation. -/
def goodCircuit (E : Finset (Nat × Nat)) (c : List Nat) : Prop :=
  c.head? = c.getLast? ∧ c.length = E.card + 1 ∧
  (pairsL c : Multiset (Nat × Nat)) = E.val

instance (E : Finset (Nat × Nat)) (c : List Nat) :
    Decidable (goodCircuit E c) := by
  unfold goodCircuit; infer_instance

/-- Termination measure for the breadth-first loop: pending queue entries
plus a budget of 1 + degree for every not-yet-seen node. -/
def bfsM (G : Graph) (queue : List Nat) (seen : Finset Nat) : Nat :=
  queue.length + (((keys G).toFinset \ seen).sum (fun v => 1 + degree G v))

/- ==================================================================
Theorems.  First, basic facts about unordered pairs, lookups and the
graph representation.
================================================================== -/

theorem upair_comm (a b : Nat) : upair a b = upair b a := by
  rcases Nat.lt_trichotomy a b with h | rfl | h
  · rw [upair, upair, if_pos (Nat.le_of_lt h), if_neg (by omega)]
  · rfl
  · rw [upair, upair, if_neg (by omega), if_pos (Nat.le_of_lt h)]

theorem upair_eq_iff {a b c d : Nat} :
    upair a b = upair c d ↔ (a = c ∧ b = d) ∨ (a = d ∧ b = c) := by
  unfold upair
  split <;> split <;> simp [Prod.ext_iff] <;> omega

theorem upair_endpoints {x a b : Nat} :
    (x = (upair a b).1 ∨ x = (upair a b).2) ↔ (x = a ∨ x = b) := by
  unfold upair; split <;> simp <;> omega

theorem upair_fst_ne_snd {a b : Nat} (h : a ≠ b) :
    (upair a b).1 ≠ (upair a b).2 := by
  unfold upair; split
  · simpa using h
  · simpa using fun e => h e.symm

theorem upair_norm (a b : Nat) : upair (upair a b).1 (upair a b).2 = upair a b := by
  unfold upair; split <;> simp <;> omega

theorem lookup'_eq_none {l : List (Nat × List Nat)} {x : Nat} :
    lookup' l x = none ↔ x ∉ l.map Prod.fst := by
  induction l with
  | nil => simp [lookup']
  | cons p rest ih =>
    obtain ⟨k, v⟩ := p
    by_cases hk : k = x
    · subst hk; simp [lookup']
    · simp [lookup', hk, ih, Ne.symm hk]

theorem lookup'_mem {l : List (Nat × List Nat)} {x : Nat} {v : List Nat}
    (h : lookup' l x = some v) : (x, v) ∈ l := by
  induction l with
  | nil => simp [lookup'] at h
  | cons p rest ih =>
    obtain ⟨k, w⟩ := p
    by_cases hk : k = x
    · subst hk
      simp [lookup'] at h
      simp [h]
    · simp [lookup', hk] at h
      exact List.mem_cons_of_mem _ (ih h)

theorem lookup'_isSome_of_mem {l : List (Nat × List Nat)} {x : Nat}
    (h : x ∈ l.map Prod.fst) : ∃ v, lookup' l x = some v := by
  rcases hv : lookup' l x with _ | v
  · exact absurd (lookup'_eq_none.mp hv) (by simpa using h)
  · exact ⟨v, rfl⟩

theorem nbr_of_lookup {G : Graph} {x : Nat} {ns : List Nat}
    (h : lookup' G.adj x = some ns) : nbr G x = ns := by
  simp [nbr, nbr?, h]

theorem nbr_of_not_mem {G : Graph} {x : Nat} (h : x ∉ keys G) : nbr G x = [] := by
  have : lookup' G.adj x = none := lookup'_eq_none.mpr (by simpa [keys] using h)
  simp [nbr, nbr?, this]

theorem mem_keys_of_nbr {G : Graph} {x w : Nat} (h : w ∈ nbr G x) : x ∈ keys G := by
  by_contra hx
  rw [nbr_of_not_mem hx] at h
  simp at h

/-- The adjacency entry found by lookup for a present key. -/
theorem adj_entry_of_mem_keys {G : Graph} {x : Nat} (h : x ∈ keys G) :
    (x, nbr G x) ∈ G.adj := by
  obtain ⟨v, hv⟩ := lookup'_isSome_of_mem (by simpa [keys] using h)
  rw [nbr_of_lookup hv]
  exact lookup'_mem hv

theorem wfB.nbr_nodup {G : Graph} (h : wfB G) (v : Nat) : (nbr G v).Nodup := by
  by_cases hv : v ∈ keys G
  · exact (h.2 _ (adj_entry_of_mem_keys hv)).1
  · simp [nbr_of_not_mem hv]

theorem wfB.not_self {G : Graph} (h : wfB G) (v : Nat) : v ∉ nbr G v := by
  by_cases hv : v ∈ keys G
  · exact (h.2 _ (adj_entry_of_mem_keys hv)).2.1
  · simp [nbr_of_not_mem hv]

theorem wfB.nbr_sub_keys {G : Graph} (h : wfB G) {v w : Nat}
    (hw : w ∈ nbr G v) : w ∈ keys G :=
  ((h.2 _ (adj_entry_of_mem_keys (mem_keys_of_nbr hw))).2.2 w hw).1

theorem wfB.symm {G : Graph} (h : wfB G) {v w : Nat} :
    w ∈ nbr G v ↔ v ∈ nbr G w := by
  constructor
  · intro hw
    exact ((h.2 _ (adj_entry_of_mem_keys (mem_keys_of_nbr hw))).2.2 w hw).2
  · intro hv
    exact ((h.2 _ (adj_entry_of_mem_keys (mem_keys_of_nbr hv))).2.2 v hv).2

theorem mem_edges_of_nbr {G : Graph} {a b : Nat} (h : b ∈ nbr G a) :
    upair a b ∈ edges G := by
  have ha : (a, nbr G a) ∈ G.adj := adj_entry_of_mem_keys (mem_keys_of_nbr h)
  simp only [edges, List.mem_toFinset, edgeList, List.mem_flatMap]
  exact ⟨(a, nbr G a), ha, by simpa using ⟨b, h, rfl⟩⟩

/-- With unique keys, any adjacency entry is the one found by lookup. -/
theorem lookup'_of_entry {l : List (Nat × List Nat)}
    (hnd : (l.map Prod.fst).Nodup) {p : Nat × List Nat} (hp : p ∈ l) :
    lookup' l p.1 = some p.2 := by
  induction l with
  | nil => simp at hp
  | cons q rest ih =>
    simp only [List.map_cons, List.nodup_cons] at hnd
    rcases List.mem_cons.mp hp with rfl | hmem
    · simp [lookup']
    · have hne : q.1 ≠ p.1 := by
        intro he
        exact hnd.1 (he ▸ List.mem_map_of_mem Prod.fst hmem)
      simp only [lookup', if_neg hne]
      exact ih hnd.2 hmem

theorem nbr_of_entry {G : Graph} (hnd : (keys G).Nodup)
    {p : Nat × List Nat} (hp : p ∈ G.adj) : nbr G p.1 = p.2 :=
  nbr_of_lookup (lookup'_of_entry hnd hp)

/-- Every member of the edge set comes from an adjacency entry. -/
theorem edges_shape {G : Graph} (hnd : (keys G).Nodup) {e : Nat × Nat}
    (h : e ∈ edges G) : ∃ a b, b ∈ nbr G a ∧ e = upair a b := by
  simp only [edges, List.mem_toFinset, edgeList, List.mem_flatMap] at h
  obtain ⟨p, hp, h2⟩ := h
  simp only [List.mem_map] at h2
  obtain ⟨w, hw, rfl⟩ := h2
  exact ⟨p.1, w, (nbr_of_entry hnd hp) ▸ hw, rfl⟩

theorem mem_edges_iff {G : Graph} (h : wfB G) {a b : Nat} :
    upair a b ∈ edges G ↔ b ∈ nbr G a := by
  constructor
  · intro hm
    obtain ⟨x, y, hy, he⟩ := edges_shape h.1 hm
    rcases upair_eq_iff.mp he.symm with ⟨rfl, rfl⟩ | ⟨rfl, rfl⟩
    · exact hy
    · exact h.symm.mp hy
  · exact mem_edges_of_nbr

/- ---------------- degE, pairsL and parity helpers ---------------- -/

theorem degE_mono {R S : Finset (Nat × Nat)} (h : R ⊆ S) (x : Nat) :
    degE R x ≤ degE S x :=
  Finset.card_le_card (Finset.filter_subset_filter _ h)

theorem degE_pos_of_mem {R : Finset (Nat × Nat)} {e : Nat × Nat} {x : Nat}
    (he : e ∈ R) (hx : e.1 = x ∨ e.2 = x) : 0 < degE R x :=
  Finset.card_pos.mpr ⟨e, Finset.mem_filter.mpr ⟨he, hx⟩⟩

theorem degE_erase_incident {R : Finset (Nat × Nat)} {e : Nat × Nat} {x : Nat}
    (he : e ∈ R) (hx : e.1 = x ∨ e.2 = x) :
    degE (R.erase e) x + 1 = degE R x := by
  unfold degE
  rw [Finset.filter_erase, Finset.card_erase_of_mem (Finset.mem_filter.mpr ⟨he, hx⟩)]
  have : 0 < (R.filter (fun e => e.1 = x ∨ e.2 = x)).card :=
    degE_pos_of_mem he hx
  omega

theorem degE_erase_not {R : Finset (Nat × Nat)} {e : Nat × Nat} {x : Nat}
    (hx : ¬(e.1 = x ∨ e.2 = x)) : degE (R.erase e) x = degE R x := by
  unfold degE
  rw [Finset.filter_erase, Finset.erase_eq_of_not_mem]
  intro hc
  exact hx (Finset.mem_filter.mp hc).2

theorem odd_pos {n : Nat} (h : Odd n) : 0 < n := by
  rw [Nat.odd_iff] at h; omega

theorem odd_pred_iff {m n : Nat} (h : m + 1 = n) : Odd m ↔ ¬ Odd n := by
  rw [Nat.odd_iff, Nat.odd_iff]; omega

theorem pairsL_cons_cons (a b : Nat) (t : List Nat) :
    pairsL (a :: b :: t) = upair a b :: pairsL (b :: t) := rfl

theorem pairsL_append_last {l : List Nat} {y : Nat} (h : l.getLast? = some y)
    (x : Nat) : pairsL (l ++ [x]) = pairsL l ++ [upair y x] := by
  induction l with
  | nil => simp at h
  | cons a t ih =>
    cases t with
    | nil =>
      simp only [List.getLast?_singleton, Option.some.injEq] at h
      subst h
      simp [pairsL]
    | cons b t2 =>
      have h2 : (b :: t2).getLast? = some y := by
        rw [List.getLast?_cons_cons] at h; exact h
      show upair a b :: pairsL ((b :: t2) ++ [x]) =
        (upair a b :: pairsL (b :: t2)) ++ [upair y x]
      rw [ih h2]
      simp

theorem pairsL_length {l : List Nat} (h : l ≠ []) :
    (pairsL l).length + 1 = l.length := by
  induction l with
  | nil => simp at h
  | cons a t ih =>
    cases t with
    | nil => simp [pairsL]
    | cons b t2 =>
      have := ih (by simp)
      simp only [pairsL_cons_cons, List.length_cons] at this ⊢
      omega

/-- Removing one more remaining edge adds it to the consumed side. -/
theorem sdiff_erase_val {E0 R : Finset (Nat × Nat)} {e : Nat × Nat}
    (hR : R ⊆ E0) (he : e ∈ R) :
    (E0 \ R.erase e).val = e ::ₘ (E0 \ R).val := by
  have hset : E0 \ R.erase e = insert e (E0 \ R) := by
    ext x
    simp only [Finset.mem_sdiff, Finset.mem_erase, Finset.mem_insert]
    constructor
    · rintro ⟨hx, hxe⟩
      by_cases hxe2 : x = e
      · exact Or.inl hxe2
      · exact Or.inr ⟨hx, fun hc => hxe ⟨hxe2, hc⟩⟩
    · rintro (rfl | ⟨hx, hxr⟩)
      · exact ⟨hR he, fun hc => hc.1 rfl⟩
      · exact ⟨hx, fun hc => hxr hc.2⟩
  rw [hset, Finset.insert_val_of_not_mem]
  simp [Finset.mem_sdiff, he]

theorem pairsL_nil : pairsL [] = [] := rfl

theorem pairsL_single (a : Nat) : pairsL [a] = [] := rfl

theorem junc_nil (a : Nat) : junc [] a = 0 := rfl

theorem junc_of_getLast {c : List Nat} {l : Nat} (h : c.getLast? = some l)
    (a : Nat) : junc c a = {upair l a} := by
  unfold junc; rw [h]

theorem mcoe_cons2 (e : Nat × Nat) (l : List (Nat × Nat)) :
    ((e :: l : List (Nat × Nat)) : Multiset (Nat × Nat)) = {e} + ↑l := by
  rw [← Multiset.cons_coe, show ({e} : Multiset (Nat × Nat)) = e ::ₘ 0 from rfl,
    Multiset.cons_add, zero_add]

theorem mcoe_concat2 (l : List (Nat × Nat)) (e : Nat × Nat) :
    ((l ++ [e] : List (Nat × Nat)) : Multiset (Nat × Nat)) = ↑l + {e} := by
  rw [← Multiset.coe_add, Multiset.coe_singleton]

theorem getLast?_none_eq_nil {l : List Nat} (h : l.getLast? = none) : l = [] := by
  cases l with
  | nil => rfl
  | cons a t => simp at h

/- ---------------- Generic termination of the Hierholzer loop ---------------- -/

/-- If every push strictly decreases a measure (while preserving the
variant-specific state predicate), the loop never exhausts its fuel:
every iteration pushes (bounded by the measure) or pops (bounded by the
stack, which only pushes grow). -/
theorem hloop_ne_out {σ : Type} (step : σ → Nat → Step σ) (μ : σ → Nat)
    (P : σ → Prop)
    (hstep : ∀ st cur w st', P st → step st cur = .push w st' →
      P st' ∧ μ st' < μ st) :
    ∀ fuel st stack circuit, P st → 2 * μ st + stack.length < fuel →
      hloop step fuel st stack circuit ≠ .out := by
  intro fuel
  induction fuel with
  | zero => intro st stack circuit _ h; omega
  | succ f ih =>
    intro st stack circuit hP h
    cases stack with
    | nil => simp [hloop]
    | cons cur rest =>
      cases hs : step st cur with
      | fail => simp [hloop, hs]
      | pop =>
        have := ih st rest (circuit ++ [cur]) hP (by simp at h ⊢; omega)
        simpa [hloop, hs] using this
      | push w st' =>
        obtain ⟨hP', hμ⟩ := hstep st cur w st' hP hs
        have := ih st' (w :: cur :: rest) circuit hP' (by simp at h ⊢; omega)
        simpa [hloop, hs] using this

/- ---------------- The main loop-invariant theorem ---------------- -/

/-- Correctness of the shared Hierholzer loop, generic in the variant's
edge tracker.  From any state satisfying the invariant the loop
completes and returns a closed v0-to-v0 walk whose consecutive pairs are
exactly the consumed edges. -/
theorem hloop_main {σ : Type} (step : σ → Nat → Step σ) (P : σ → Prop)
    (rem : σ → Finset (Nat × Nat)) (V : Finset Nat)
    (E0 : Finset (Nat × Nat)) (v0 : Nat)
    (hE0 : ∀ e ∈ E0, e.1 ≠ e.2 ∧ e.1 ∈ V ∧ e.2 ∈ V ∧ e = upair e.1 e.2)
    (hfail : ∀ st cur, P st → cur ∈ V → step st cur ≠ .fail)
    (hpush : ∀ st cur w st', P st → step st cur = .push w st' →
      P st' ∧ upair cur w ∈ rem st ∧ rem st' = (rem st).erase (upair cur w))
    (hpop : ∀ st cur, P st → cur ∈ V → step st cur = .pop →
      degE (rem st) cur = 0) :
    ∀ fuel st stack circuit a,
      Inv P rem V E0 v0 st stack circuit a →
      2 * (rem st).card + stack.length < fuel →
      ∃ stF cF, hloop step fuel st stack circuit = .done stF cF ∧
        P stF ∧ rem stF ⊆ E0 ∧
        (pairsL cF : Multiset (Nat × Nat)) = (E0 \ rem stF).val ∧
        cF.head? = some v0 ∧ cF.getLast? = some v0 ∧
        cF.length = (E0 \ rem stF).card + 1 ∧ ∀ x ∈ cF, x ∈ V := by
  intro fuel
  induction fuel with
  | zero => intro st stack circuit a _ h; omega
  | succ f ih =>
    intro st stack circuit a hInv hfuel
    obtain ⟨hP, hsub, hne, hlast, hstackV, hcircV, haV, hca, hhead, hacc, hodd⟩ := hInv
    cases stack with
    | nil => exact absurd rfl hne
    | cons cur rest =>
      have hcurV : cur ∈ V := hstackV cur (by simp)
      cases hs : step st cur with
      | fail => exact absurd hs (hfail st cur hP hcurV)
      | push w st' =>
        obtain ⟨hP', hein, hrem'⟩ := hpush st cur w st' hP hs
        have heE0 : upair cur w ∈ E0 := hsub hein
        obtain ⟨hne12, h1V, h2V, _⟩ := hE0 _ heE0
        have hwcases : w = (upair cur w).1 ∨ w = (upair cur w).2 :=
          upair_endpoints.mpr (Or.inr rfl)
        have hwV : w ∈ V := by rcases hwcases with h | h <;> rw [h] <;> assumption
        have hwne : w ≠ cur := by
          intro h; subst h; exact hne12 (by simp [upair])
        have hcard : 0 < (rem st).card := Finset.card_pos.mpr ⟨_, hein⟩
        have hstep : hloop step (f + 1) st (cur :: rest) circuit =
            hloop step f st' (w :: cur :: rest) circuit := by
          simp [hloop, hs]
        rw [hstep]
        refine ih st' (w :: cur :: rest) circuit a
          ⟨hP', ?_, by simp, ?_, ?_, hcircV, haV, hca, hhead, ?_, ?_⟩ ?_
        · rw [hrem']; exact (Finset.erase_subset _ _).trans hsub
        · rw [List.getLast?_cons_cons]; exact hlast
        · intro x hx
          rcases List.mem_cons.mp hx with rfl | hx2
          · exact hwV
          · exact hstackV x hx2
        · -- edge accounting after the push
          rw [hrem', sdiff_erase_val hsub hein, ← hacc, pairsL_cons_cons,
            upair_comm w cur]
          rw [← Multiset.cons_coe, Multiset.add_cons, Multiset.cons_add]
        · -- parity after the push
          intro x
          have hdegR := hodd x
          simp only [List.head?_cons, ne_eq, Option.some.injEq] at hdegR ⊢
          rw [hrem']
          by_cases hx : x = cur ∨ x = w
          · have hinc : (upair cur w).1 = x ∨ (upair cur w).2 = x := by
              have h2 : x = (upair cur w).1 ∨ x = (upair cur w).2 :=
                upair_endpoints.mpr hx
              exact h2.imp Eq.symm Eq.symm
            rw [odd_pred_iff (degE_erase_incident hein hinc), hdegR]
            rcases hx with rfl | rfl
            · omega
            · omega
          · push_neg at hx
            have hninc : ¬((upair cur w).1 = x ∨ (upair cur w).2 = x) := by
              intro hc
              have h2 := upair_endpoints.mp (hc.imp Eq.symm Eq.symm)
              rcases h2 with h | h
              · exact hx.1 h
              · exact hx.2 h
            rw [degE_erase_not hninc, hdegR]
            omega
        · -- fuel
          rw [hrem', Finset.card_erase_of_mem hein]
          simp only [List.length_cons] at hfuel ⊢
          omega
      | pop =>
        have hdeg0 : degE (rem st) cur = 0 := hpop st cur hP hcurV hs
        have hcura : cur = a := by
          by_contra hc
          have hoddc : Odd (degE (rem st) cur) :=
            (hodd cur).mpr ⟨Or.inl rfl, by simpa using hc⟩
          rw [hdeg0] at hoddc
          simp [Nat.odd_iff] at hoddc
        subst hcura
        cases rest with
        | nil =>
          have hv0 : cur = v0 := by simpa using hlast
          subst hv0
          obtain ⟨f', rfl⟩ : ∃ f', f = f' + 1 :=
            ⟨f - 1, by simp at hfuel; omega⟩
          have hnew : (pairsL (circuit ++ [cur]) : Multiset (Nat × Nat)) =
              (E0 \ rem st).val := by
            rcases hcgl : circuit.getLast? with _ | l
            · have hce : circuit = [] := getLast?_none_eq_nil hcgl
              subst hce
              rw [← hacc]
              simp [pairsL_nil, pairsL_single, junc_nil]
            · rw [pairsL_append_last hcgl, ← hacc, junc_of_getLast hcgl,
                mcoe_concat2]
              simp [pairsL_single]
          refine ⟨st, circuit ++ [cur], by simp [hloop, hs], hP, hsub, hnew, ?_, by simp, ?_, ?_⟩
          · rcases hch : circuit.head? with _ | h0
            · have hce : circuit = [] := List.head?_eq_none_iff.mp hch
              subst hce
              simp
            · have hne2 : circuit ≠ [] := by intro h; subst h; simp at hch
              rw [List.head?_append, hhead hne2]
              rfl
          · have hlen := pairsL_length (l := circuit ++ [cur]) (by simp)
            have hc := congrArg Multiset.card hnew
            simp only [Multiset.coe_card] at hc
            have : (E0 \ rem st).card = ((E0 \ rem st).val).card := rfl
            omega
          · intro x hx
            rcases List.mem_append.mp hx with hx2 | hx2
            · exact hcircV x hx2
            · simp at hx2; subst hx2; exact hcurV
        | cons r0 rs =>
          have hstep : hloop step (f + 1) st (cur :: r0 :: rs) circuit =
              hloop step f st (r0 :: rs) (circuit ++ [cur]) := by
            simp [hloop, hs]
          rw [hstep]
          have hr0V : r0 ∈ V := hstackV r0 (by simp)
          refine ih st (r0 :: rs) (circuit ++ [cur]) r0
            ⟨hP, hsub, by simp, ?_, ?_, ?_, hr0V, by simp, ?_, ?_, ?_⟩ ?_
          · rw [List.getLast?_cons_cons] at hlast; exact hlast
          · intro x hx; exact hstackV x (List.mem_cons_of_mem _ hx)
          · intro x hx
            rcases List.mem_append.mp hx with hx2 | hx2
            · exact hcircV x hx2
            · simp at hx2; subst hx2; exact hcurV
          · -- head of the new circuit
            intro _
            rcases hch : circuit.head? with _ | h0
            · have hce : circuit = [] := List.head?_eq_none_iff.mp hch
              subst hce
              simp [hca rfl]
            · have hne2 : circuit ≠ [] := by intro h; subst h; simp at hch
              rw [List.head?_append, hhead hne2]
              rfl
          · -- accounting across the pop
            rcases hcgl : circuit.getLast? with _ | l
            · have hce : circuit = [] := getLast?_none_eq_nil hcgl
              subst hce
              rw [← hacc]
              rw [show ([] : List Nat) ++ [cur] = [cur] from rfl,
                junc_of_getLast (l := cur) (by simp) r0]
              simp only [pairsL_single, pairsL_nil, junc_nil, pairsL_cons_cons,
                mcoe_cons2, Multiset.coe_nil, zero_add, add_zero]
              exact add_comm _ _
            · rw [pairsL_append_last hcgl, ← hacc,
                junc_of_getLast (List.getLast?_concat circuit) r0,
                junc_of_getLast hcgl, pairsL_cons_cons, mcoe_concat2, mcoe_cons2]
              abel
          · -- parity across the pop (both odd sets are empty)
            intro x
            have hdegR := hodd x
            simp only [List.head?_cons, Option.some.injEq] at hdegR ⊢
            rw [hdegR]
            constructor
            · rintro ⟨_, hfalse⟩; exact absurd rfl hfalse
            · rintro ⟨_, hfalse⟩; exact absurd rfl hfalse
          · simp only [List.length_cons] at hfuel ⊢
            omega

/-- Removing one edge from the remaining set splits any remaining-edge
path at the first use of that edge. -/
theorem reachE_erase {R : Finset (Nat × Nat)} {e : Nat × Nat} {x y : Nat}
    (h : ReachE R x y) :
    ReachE (R.erase e) x y ∨ ReachE (R.erase e) x e.1 ∨
      ReachE (R.erase e) x e.2 := by
  induction h with
  | refl => exact Or.inl Relation.ReflTransGen.refl
  | tail _ hzy ih =>
    rename_i z y2 _
    rcases ih with h1 | h1 | h1
    · by_cases he : upair z y2 = e
      · have hz : z = e.1 ∨ z = e.2 := by
          rw [← he]; exact upair_endpoints.mpr (Or.inl rfl)
        rcases hz with hz | hz
        · exact Or.inr (Or.inl (hz ▸ h1))
        · exact Or.inr (Or.inr (hz ▸ h1))
      · exact Or.inl (h1.tail (Finset.mem_erase.mpr ⟨he, hzy⟩))
    · exact Or.inr (Or.inl h1)
    · exact Or.inr (Or.inr h1)

/-- At termination every remaining edge would still be connected to some
stack vertex, so once the stack is empty no edge remains. -/
theorem hloop_conn {σ : Type} (step : σ → Nat → Step σ) (P : σ → Prop)
    (rem : σ → Finset (Nat × Nat)) (V : Finset Nat)
    (E0 : Finset (Nat × Nat))
    (hE0 : ∀ e ∈ E0, e.1 ∈ V ∧ e.2 ∈ V)
    (hpush : ∀ st cur w st', P st → step st cur = .push w st' →
      P st' ∧ upair cur w ∈ rem st ∧ rem st' = (rem st).erase (upair cur w))
    (hpop : ∀ st cur, P st → cur ∈ V → step st cur = .pop →
      degE (rem st) cur = 0) :
    ∀ fuel st stack circuit stF cF,
      P st → rem st ⊆ E0 → (∀ x ∈ stack, x ∈ V) → ConnInv rem st stack →
      hloop step fuel st stack circuit = .done stF cF →
      rem stF = ∅ := by
  intro fuel
  induction fuel with
  | zero => intro st stack circuit stF cF _ _ _ _ h; simp [hloop] at h
  | succ f ih =>
    intro st stack circuit stF cF hP hsub hsV hconn hrun
    cases stack with
    | nil =>
      simp only [hloop, LRes.done.injEq] at hrun
      obtain ⟨rfl, rfl⟩ := hrun
      by_contra hne
      obtain ⟨e, he⟩ := Finset.nonempty_iff_ne_empty.mpr hne
      have hd : 0 < degE (rem st) e.1 := degE_pos_of_mem he (Or.inl rfl)
      obtain ⟨y, hy, _⟩ := hconn _ hd
      simp at hy
    | cons cur rest =>
      have hcurV : cur ∈ V := hsV cur (by simp)
      cases hs : step st cur with
      | fail => simp [hloop, hs] at hrun
      | pop =>
        have hdeg := hpop st cur hP hcurV hs
        refine ih st rest (circuit ++ [cur]) stF cF hP hsub
          (fun x hx => hsV x (List.mem_cons_of_mem _ hx)) ?_
          (by simpa [hloop, hs] using hrun)
        intro x hx
        obtain ⟨y, hy, hr⟩ := hconn x hx
        rcases List.mem_cons.mp hy with rfl | hy2
        · exfalso
          rcases Relation.ReflTransGen.cases_tail hr with heq | ⟨z, _, hz⟩
          · subst heq; rw [hdeg] at hx; omega
          · have hinc : (upair z y).1 = y ∨ (upair z y).2 = y :=
              (upair_endpoints.mpr (Or.inr rfl)).imp Eq.symm Eq.symm
            have := degE_pos_of_mem hz hinc
            rw [hdeg] at this; omega
        · exact ⟨y, hy2, hr⟩
      | push w st' =>
        obtain ⟨hP', hein, hrem'⟩ := hpush st cur w st' hP hs
        have hsub' : rem st' ⊆ E0 := by
          rw [hrem']; exact (Finset.erase_subset _ _).trans hsub
        have hwV : w ∈ V := by
          obtain ⟨h1V, h2V⟩ := hE0 _ (hsub hein)
          have h2 : w = (upair cur w).1 ∨ w = (upair cur w).2 :=
            upair_endpoints.mpr (Or.inr rfl)
          rcases h2 with h2 | h2 <;> rw [h2] <;> assumption
        refine ih st' (w :: cur :: rest) circuit stF cF hP' hsub' ?_ ?_
          (by simpa [hloop, hs] using hrun)
        · intro x hx
          rcases List.mem_cons.mp hx with rfl | hx2
          · exact hwV
          · exact hsV x hx2
        · intro x hx
          have hx0 : 0 < degE (rem st) x := by
            have hmono := degE_mono (R := rem st') (S := rem st)
              (by rw [hrem']; exact Finset.erase_subset _ _) x
            omega
          obtain ⟨y, hy, hr⟩ := hconn x hx0
          have hsplit := reachE_erase (e := upair cur w) hr
          rw [← hrem'] at hsplit
          have hc1 : (upair cur w).1 = cur ∨ (upair cur w).1 = w :=
            upair_endpoints.mp (Or.inl rfl)
          have hc2 : (upair cur w).2 = cur ∨ (upair cur w).2 = w :=
            upair_endpoints.mp (Or.inr rfl)
          rcases hsplit with h1 | h1 | h1
          · exact ⟨y, List.mem_cons_of_mem _ hy, h1⟩
          · rcases hc1 with h2 | h2
            · exact ⟨cur, by simp, h2 ▸ h1⟩
            · exact ⟨w, by simp, h2 ▸ h1⟩
          · rcases hc2 with h2 | h2
            · exact ⟨cur, by simp, h2 ▸ h1⟩
            · exact ⟨w, by simp, h2 ▸ h1⟩

/- ---------------- remove_edge and the Variant 1 stepper ---------------- -/

theorem mem_of_getLast? {l : List Nat} {w : Nat} (h : l.getLast? = some w) :
    w ∈ l := by
  induction l with
  | nil => simp at h
  | cons a t ih =>
    cases t with
    | nil =>
      simp only [List.getLast?_singleton, Option.some.injEq] at h
      simp [h]
    | cons b t2 =>
      rw [List.getLast?_cons_cons] at h
      exact List.mem_cons_of_mem _ (ih h)

theorem removeEdge_adj (G : Graph) (u w : Nat) :
    (removeEdge G u w).adj = G.adj.map (fun p =>
      (p.1, if p.1 = u then p.2.erase w
            else if p.1 = w then p.2.erase u else p.2)) := by
  show G.adj.map _ = _
  apply List.map_congr_left
  intro p _
  by_cases h1 : p.1 = u
  · simp [h1]
  · by_cases h2 : p.1 = w
    · simp only [if_neg h1, if_pos h2, h2]
      split <;> rfl
    · simp [h1, h2]

theorem keys_removeEdge (G : Graph) (u w : Nat) :
    keys (removeEdge G u w) = keys G := by
  rw [keys, removeEdge_adj, List.map_map]
  rfl

theorem lookup'_map_snd {l : List (Nat × List Nat)}
    (g : Nat → List Nat → List Nat) (x : Nat) :
    lookup' (l.map (fun p => (p.1, g p.1 p.2))) x =
      (lookup' l x).map (g x) := by
  induction l with
  | nil => rfl
  | cons p rest ih =>
    by_cases h : p.1 = x
    · simp [List.map_cons, lookup', h]
    · simp [List.map_cons, lookup', h, ih]

theorem nbr_removeEdge (G : Graph) (u w v : Nat) :
    nbr (removeEdge G u w) v =
      if v = u then (nbr G v).erase w
      else if v = w then (nbr G v).erase u else nbr G v := by
  unfold nbr nbr?
  rw [removeEdge_adj,
    lookup'_map_snd (fun k v2 => if k = u then v2.erase w
      else if k = w then v2.erase u else v2) v]
  cases h : lookup' G.adj v with
  | none =>
    simp only [h, Option.map_none', Option.getD_none]
    split
    · simp
    · split <;> simp
  | some ns => simp only [h, Option.map_some', Option.getD_some]

theorem nbr_removeEdge_mem {G : Graph} (hwf : wfB G) {u w v b : Nat} :
    b ∈ nbr (removeEdge G u w) v ↔
      b ∈ nbr G v ∧ ¬(v = u ∧ b = w) ∧ ¬(v = w ∧ b = u) := by
  rw [nbr_removeEdge]
  by_cases h1 : v = u
  · rw [if_pos h1]
    rw [List.Nodup.mem_erase_iff (hwf.nbr_nodup v)]
    constructor
    · rintro ⟨hbw, hb⟩
      refine ⟨hb, fun hc => hbw hc.2, fun hc => ?_⟩
      apply hwf.not_self v
      have hbv : b = v := by rw [hc.2, h1]
      rwa [hbv] at hb
    · rintro ⟨hb, h2, _⟩
      exact ⟨fun hc => h2 ⟨h1, hc⟩, hb⟩
  · rw [if_neg h1]
    by_cases h2 : v = w
    · rw [if_pos h2]
      rw [List.Nodup.mem_erase_iff (hwf.nbr_nodup v)]
      constructor
      · rintro ⟨hbu, hb⟩
        exact ⟨hb, fun hc => h1 hc.1, fun hc => hbu hc.2⟩
      · rintro ⟨hb, _, h3⟩
        exact ⟨fun hc => h3 ⟨h2, hc⟩, hb⟩
    · rw [if_neg h2]
      constructor
      · intro hb
        exact ⟨hb, fun hc => h1 hc.1, fun hc => h2 hc.1⟩
      · exact fun h => h.1

theorem wfB_removeEdge {G : Graph} (hwf : wfB G) (u w : Nat) :
    wfB (removeEdge G u w) := by
  have hkeys := keys_removeEdge G u w
  constructor
  · rw [hkeys]; exact hwf.1
  · intro p' hp'
    rw [removeEdge_adj] at hp'
    obtain ⟨p, hp, rfl⟩ := List.mem_map.mp hp'
    have hpfacts := hwf.2 p hp
    have hsub : (if p.1 = u then p.2.erase w
        else if p.1 = w then p.2.erase u else p.2) ⊆ p.2 := by
      split
      · exact List.erase_subset _ _
      · split
        · exact List.erase_subset _ _
        · exact fun a ha => ha
    refine ⟨?_, ?_, ?_⟩
    · split
      · exact List.Nodup.erase _ hpfacts.1
      · split
        · exact List.Nodup.erase _ hpfacts.1
        · exact hpfacts.1
    · intro hc
      exact hpfacts.2.1 (hsub hc)
    · intro b hb
      have hbp : b ∈ p.2 := hsub hb
      refine ⟨by rw [hkeys]; exact (hpfacts.2.2 b hbp).1, ?_⟩
      -- symmetry in the mutated graph
      have hnb : b ∈ nbr (removeEdge G u w) p.1 := by
        have hent : (p.1, if p.1 = u then p.2.erase w
            else if p.1 = w then p.2.erase u else p.2) ∈ (removeEdge G u w).adj := by
          rw [removeEdge_adj]
          exact List.mem_map.mpr ⟨p, hp, rfl⟩
        have := nbr_of_entry (by rw [hkeys]; exact hwf.1) hent
        rw [this]
        exact hb
      rw [nbr_removeEdge_mem hwf] at hnb ⊢
      have hpnbr : p.2 = nbr G p.1 := (nbr_of_entry hwf.1 hp).symm
      exact ⟨hwf.symm.mp hnb.1, fun hc => hnb.2.2 ⟨hc.2, hc.1⟩,
        fun hc => hnb.2.1 ⟨hc.2, hc.1⟩⟩

/-- remove_edge removes exactly that edge from the edge set. -/
theorem edges_removeEdge {G : Graph} (hwf : wfB G) {u w : Nat}
    (hw : w ∈ nbr G u) :
    edges (removeEdge G u w) = (edges G).erase (upair u w) := by
  have hwf' := wfB_removeEdge hwf u w
  ext e
  rw [Finset.mem_erase]
  constructor
  · intro he
    obtain ⟨a, b, hb, rfl⟩ := edges_shape hwf'.1 he
    rw [nbr_removeEdge_mem hwf] at hb
    constructor
    · intro hc
      rcases upair_eq_iff.mp hc with ⟨rfl, rfl⟩ | ⟨rfl, rfl⟩
      · exact hb.2.1 ⟨rfl, rfl⟩
      · exact hb.2.2 ⟨rfl, rfl⟩
    · exact mem_edges_of_nbr hb.1
  · rintro ⟨hne, he⟩
    obtain ⟨a, b, hb, rfl⟩ := edges_shape hwf.1 he
    apply mem_edges_of_nbr
    rw [nbr_removeEdge_mem hwf]
    refine ⟨hb, fun hc => hne ?_, fun hc => hne ?_⟩
    · rw [hc.1, hc.2]
    · rw [hc.1, hc.2, upair_comm]

theorem degE_edges {G : Graph} (hwf : wfB G) (x : Nat) :
    degE (edges G) x = degree G x := by
  have hset : (edges G).filter (fun e => e.1 = x ∨ e.2 = x) =
      ((nbr G x).toFinset).image (fun w => upair x w) := by
    ext e
    simp only [Finset.mem_filter, Finset.mem_image, List.mem_toFinset]
    constructor
    · rintro ⟨he, hinc⟩
      obtain ⟨a, b, hb, rfl⟩ := edges_shape hwf.1 he
      have hends : x = a ∨ x = b :=
        upair_endpoints.mp (hinc.imp Eq.symm Eq.symm)
      rcases hends with rfl | rfl
      · exact ⟨b, hb, rfl⟩
      · exact ⟨a, hwf.symm.mp hb, upair_comm x a⟩
    · rintro ⟨b, hb, rfl⟩
      refine ⟨mem_edges_of_nbr hb, ?_⟩
      exact (upair_endpoints.mpr (Or.inl rfl)).imp Eq.symm Eq.symm
  rw [degE, hset, Finset.card_image_of_injOn,
    List.toFinset_card_of_nodup (hwf.nbr_nodup x)]
  · rfl
  · intro b1 hb1 b2 hb2 heq
    simp only [Finset.coe_sort_coe, List.coe_toFinset, Set.mem_setOf_eq] at hb1 hb2
    rcases upair_eq_iff.mp heq with ⟨_, h⟩ | ⟨hx, h⟩
    · exact h
    · exact h.trans hx

/- ---------------- Inversion of the Variant 1 stepper ---------------- -/

theorem step1_push_inv {st : Graph} {cur w : Nat} {st' : Graph}
    (h : step1 st cur = .push w st') :
    ∃ ns, lookup' st.adj cur = some ns ∧ ns.getLast? = some w ∧
      st' = removeEdge st cur w := by
  unfold step1 nbr? at h
  split at h
  · exact Step.noConfusion h
  · rename_i ns hlk
    split at h
    · exact Step.noConfusion h
    · rename_i w2 hgl
      injection h with h1 h2
      subst h1
      exact ⟨ns, hlk, hgl, h2.symm⟩

theorem step1_pop_inv {st : Graph} {cur : Nat} (h : step1 st cur = .pop) :
    nbr st cur = [] := by
  unfold step1 nbr? at h
  split at h
  · exact Step.noConfusion h
  · rename_i ns hlk
    split at h
    · rename_i hgl
      rw [nbr, nbr?, hlk, getLast?_none_eq_nil hgl]
      rfl
    · exact Step.noConfusion h

theorem step1_ne_fail {st : Graph} {cur : Nat} (hcur : cur ∈ keys st) :
    step1 st cur ≠ .fail := by
  intro h
  unfold step1 nbr? at h
  split at h
  · rename_i hlk
    exact absurd (lookup'_eq_none.mp hlk) (by simpa [keys] using hcur)
  · split at h
    · exact Step.noConfusion h
    · exact Step.noConfusion h

/- ---------------- Termination measure for Variant 1 ---------------- -/

theorem sizeSum_le (l : List (Nat × List Nat)) (u w : Nat) :
    ((l.map (fun p => (p.1, if p.1 = u then p.2.erase w
        else if p.1 = w then p.2.erase u else p.2))).map
          (fun p => p.2.length)).sum
      ≤ (l.map (fun p => p.2.length)).sum := by
  induction l with
  | nil => simp
  | cons p rest ih =>
    simp only [List.map_cons, List.sum_cons]
    have hhead : (if p.1 = u then p.2.erase w
        else if p.1 = w then p.2.erase u else p.2).length ≤ p.2.length := by
      split
      · exact (List.erase_sublist _ _).length_le
      · split
        · exact (List.erase_sublist _ _).length_le
        · exact le_refl _
    omega

theorem sizeSum_lt {l : List (Nat × List Nat)} {u w : Nat} {ns : List Nat}
    (hlk : lookup' l u = some ns) (hw : w ∈ ns) :
    ((l.map (fun p => (p.1, if p.1 = u then p.2.erase w
        else if p.1 = w then p.2.erase u else p.2))).map
          (fun p => p.2.length)).sum
      < (l.map (fun p => p.2.length)).sum := by
  induction l with
  | nil => simp [lookup'] at hlk
  | cons p rest ih =>
    simp only [List.map_cons, List.sum_cons]
    by_cases h1 : p.1 = u
    · have hns : p.2 = ns := by
        obtain ⟨k, v⟩ := p
        simp only at h1
        subst h1
        simp [lookup'] at hlk
        exact hlk
      have hwp : w ∈ p.2 := hns ▸ hw
      have hlen : (p.2.erase w).length = p.2.length - 1 :=
        List.length_erase_of_mem hwp
      have hpos : 0 < p.2.length := List.length_pos_of_mem hwp
      have htail := sizeSum_le rest u w
      rw [if_pos h1]
      simp only [List.length_cons] at *
      omega
    · have hlk' : lookup' rest u = some ns := by
        obtain ⟨k, v⟩ := p
        simp only at h1
        simp [lookup', h1] at hlk
        exact hlk
      have hhead : (if p.1 = u then p.2.erase w
          else if p.1 = w then p.2.erase u else p.2).length ≤ p.2.length := by
        split
        · exact (List.erase_sublist _ _).length_le
        · split
          · exact (List.erase_sublist _ _).length_le
          · exact le_refl _
      have := ih hlk'
      omega

theorem adjSize_step1_lt {st : Graph} {cur w : Nat} {st' : Graph}
    (h : step1 st cur = .push w st') : adjSize st' < adjSize st := by
  obtain ⟨ns, hlk, hgl, rfl⟩ := step1_push_inv h
  have hw : w ∈ ns := mem_of_getLast? hgl
  rw [adjSize, adjSize, removeEdge_adj]
  exact sizeSum_lt hlk hw

/- ---------------- Eulerian-test extraction and connectivity ---------------- -/

theorem isEulerianB_true {G : Graph} (h : isEulerianB G = some true) :
    keys G ≠ [] ∧ (∀ v ∈ keys G, Even (degree G v)) ∧ connB G = true := by
  unfold isEulerianB at h
  by_cases hk : keys G = []
  · simp [hk] at h
  · rw [if_neg hk] at h
    simp only [Option.some.injEq, Bool.and_eq_true, decide_eq_true_eq] at h
    exact ⟨hk, h.1, h.2⟩

theorem isEulerianB_false {G : Graph} (h : isEulerianB G = some false) :
    keys G ≠ [] := by
  unfold isEulerianB at h
  by_cases hk : keys G = []
  · simp [hk] at h
  · exact hk

theorem mem_expand {G : Graph} {S : List Nat} {x : Nat} :
    x ∈ expand G S ↔ x ∈ S ∨ ∃ s ∈ S, x ∈ nbr G s := by
  unfold expand
  simp [List.mem_dedup, List.mem_append, List.mem_flatMap]

theorem iterate_reach (G : Graph) (v0 : Nat) :
    ∀ k, ∀ x ∈ (expand G)^[k] [v0], ReachG G v0 x := by
  intro k
  induction k with
  | zero =>
    intro x hx
    simp only [Function.iterate_zero, id_eq, List.mem_singleton] at hx
    subst hx
    exact Relation.ReflTransGen.refl
  | succ k ih =>
    intro x hx
    rw [Function.iterate_succ_apply'] at hx
    rcases mem_expand.mp hx with h | ⟨s, hs, hn⟩
    · exact ih x h
    · exact (ih s hs).tail hn

theorem iterate_subset_keys {G : Graph} (hwf : wfB G) {v0 : Nat}
    (hv0 : v0 ∈ keys G) :
    ∀ k, ∀ x ∈ (expand G)^[k] [v0], x ∈ keys G := by
  intro k
  induction k with
  | zero =>
    intro x hx
    simp only [Function.iterate_zero, id_eq, List.mem_singleton] at hx
    subst hx
    exact hv0
  | succ k ih =>
    intro x hx
    rw [Function.iterate_succ_apply'] at hx
    rcases mem_expand.mp hx with h | ⟨s, _, hn⟩
    · exact ih x h
    · exact hwf.nbr_sub_keys hn

theorem iterate_nodup (G : Graph) (v0 : Nat) :
    ∀ k, ((expand G)^[k] [v0]).Nodup := by
  intro k
  cases k with
  | zero => simp
  | succ k =>
    rw [Function.iterate_succ_apply']
    exact List.nodup_dedup _

theorem headI_mem {l : List Nat} (h : l ≠ []) : l.headI ∈ l := by
  cases l with
  | nil => exact absurd rfl h
  | cons a t => simp

/-- When the connectivity test passes, every node is reachable from the
first node. -/
theorem connB_reach {G : Graph} (hwf : wfB G) (hk : keys G ≠ [])
    (hc : connB G = true) : ∀ x ∈ keys G, ReachG G ((keys G).headI) x := by
  intro x hx
  have hv0 : (keys G).headI ∈ keys G := headI_mem hk
  unfold connB at hc
  rw [decide_eq_true_eq] at hc
  have hnd : (compList G ((keys G).headI)).Nodup := iterate_nodup G _ _
  have hsubk : ∀ y ∈ compList G ((keys G).headI), y ∈ keys G :=
    iterate_subset_keys hwf hv0 _
  have hset : (compList G ((keys G).headI)).toFinset = (keys G).toFinset := by
    apply Finset.eq_of_subset_of_card_le
    · intro y hy
      exact List.mem_toFinset.mpr (hsubk y (List.mem_toFinset.mp hy))
    · rw [List.toFinset_card_of_nodup hnd, List.toFinset_card_of_nodup hwf.1, hc]
  have hxc : x ∈ compList G ((keys G).headI) := by
    have h1 : x ∈ (keys G).toFinset := List.mem_toFinset.mpr hx
    rw [← hset] at h1
    exact List.mem_toFinset.mp h1
  exact iterate_reach G _ _ x hxc

theorem reachG_symm {G : Graph} (hwf : wfB G) {a b : Nat}
    (h : ReachG G a b) : ReachG G b a :=
  Relation.ReflTransGen.symmetric (fun _ _ hab => hwf.symm.mp hab) h

theorem reachG_to_reachE {G : Graph} (hwf : wfB G) {a b : Nat}
    (h : ReachG G a b) : ReachE (edges G) a b :=
  Relation.ReflTransGen.mono
    (fun _ _ hab => (mem_edges_iff hwf).mpr hab) h

/-- Endpoints of edges are nodes. -/
theorem degE_pos_mem_keys {G : Graph} (hwf : wfB G) {x : Nat}
    (h : 0 < degE (edges G) x) : x ∈ keys G := by
  rw [degE_edges hwf] at h
  unfold degree at h
  rcases hnx : nbr G x with _ | ⟨b, t⟩
  · rw [hnx] at h; simp at h
  · exact mem_keys_of_nbr (hnx ▸ List.mem_cons_self b t)

/-- Initialization of the connectivity invariant for the stack [0]. -/
theorem initial_conn {G : Graph} (hwf : wfB G)
    (heu : isEulerianB G = some true) (h0 : 0 ∈ keys G) :
    ∀ x, 0 < degE (edges G) x → ReachE (edges G) x 0 := by
  obtain ⟨hk, _, hc⟩ := isEulerianB_true heu
  intro x hx
  have hxk : x ∈ keys G := degE_pos_mem_keys hwf hx
  have h1 : ReachG G ((keys G).headI) x := connB_reach hwf hk hc x hxk
  have h2 : ReachG G ((keys G).headI) 0 := connB_reach hwf hk hc 0 h0
  exact reachG_to_reachE hwf ((reachG_symm hwf h1).trans h2)

/-- Initialization of the parity invariant: all degrees even. -/
theorem initial_parity {G : Graph} (hwf : wfB G)
    (heu : isEulerianB G = some true) :
    ∀ x, ¬ Odd (degE (edges G) x) := by
  obtain ⟨_, heven, _⟩ := isEulerianB_true heu
  intro x
  rw [degE_edges hwf, Nat.odd_iff]
  by_cases hxk : x ∈ keys G
  · have := heven x hxk
    rw [Nat.even_iff] at this
    omega
  · unfold degree
    rw [nbr_of_not_mem hxk]
    simp

/-- Edges of a well-formed graph are non-degenerate normalized pairs of
nodes. -/
theorem edges_wf_shape {G : Graph} (hwf : wfB G) :
    ∀ e ∈ edges G, e.1 ≠ e.2 ∧ e.1 ∈ (keys G).toFinset ∧
      e.2 ∈ (keys G).toFinset ∧ e = upair e.1 e.2 := by
  intro e he
  obtain ⟨a, b, hb, rfl⟩ := edges_shape hwf.1 he
  have hab : a ≠ b := fun h => hwf.not_self a (h ▸ hb)
  have haK : a ∈ keys G := mem_keys_of_nbr hb
  have hbK : b ∈ keys G := hwf.nbr_sub_keys hb
  refine ⟨upair_fst_ne_snd hab, ?_, ?_, (upair_norm a b).symm⟩
  · have h1 : (upair a b).1 = a ∨ (upair a b).1 = b :=
      upair_endpoints.mp (Or.inl rfl)
    rcases h1 with h | h <;> rw [h] <;> exact List.mem_toFinset.mpr (by assumption)
  · have h2 : (upair a b).2 = a ∨ (upair a b).2 = b :=
      upair_endpoints.mp (Or.inr rfl)
    rcases h2 with h | h <;> rw [h] <;> exact List.mem_toFinset.mpr (by assumption)

theorem edges_card_le_adjSize (G : Graph) : (edges G).card ≤ adjSize G := by
  have h1 : (edges G).card ≤ (edgeList G).length := List.toFinset_card_le _
  have h2 : (edgeList G).length = adjSize G := by
    unfold edgeList adjSize
    rw [List.length_flatMap]
    congr 1
    apply List.map_congr_left
    intro p _
    simp [Function.comp, List.length_map]
  omega

/- ---------------- Variant 1: the stepper satisfies the loop interface ---------------- -/

theorem step1_hpush {G : Graph} :
    ∀ st cur w st', P1 G st → step1 st cur = .push w st' →
      P1 G st' ∧ upair cur w ∈ edges st ∧
      edges st' = (edges st).erase (upair cur w) := by
  intro st cur w st' hP hs
  obtain ⟨ns, hlk, hgl, rfl⟩ := step1_push_inv hs
  have hw : w ∈ nbr st cur := by
    rw [nbr_of_lookup hlk]
    exact mem_of_getLast? hgl
  refine ⟨⟨wfB_removeEdge hP.1 cur w, ?_⟩, mem_edges_of_nbr hw,
    edges_removeEdge hP.1 hw⟩
  rw [keys_removeEdge]
  exact hP.2

theorem step1_hpop {G : Graph} :
    ∀ st cur, P1 G st → cur ∈ (keys G).toFinset → step1 st cur = .pop →
      degE (edges st) cur = 0 := by
  intro st cur hP _ hs
  rw [degE_edges hP.1]
  unfold degree
  rw [step1_pop_inv hs]
  rfl

theorem step1_hfail {G : Graph} :
    ∀ st cur, P1 G st → cur ∈ (keys G).toFinset → step1 st cur ≠ .fail := by
  intro st cur hP hcur
  apply step1_ne_fail
  rw [hP.2]
  exact List.mem_toFinset.mp hcur

/-- Full correctness of Eulerian_circuit_1 on an Eulerian graph whose
node set contains the hard-coded start vertex 0. -/
theorem euler1_correct {G : Graph} (hwf : wfB G)
    (heu : isEulerianB G = some true) (h0 : 0 ∈ keys G) :
    ∃ GF c, euler1 G = .ret GF (some c) ∧ edges GF = ∅ ∧
      goodCircuit (edges G) c ∧ c.head? = some 0 ∧ c.getLast? = some 0 := by
  have hE0 := edges_wf_shape hwf
  have hfuel : 2 * (edges G).card + ([0] : List Nat).length < fuel1 G := by
    have := edges_card_le_adjSize G
    unfold fuel1
    simp only [List.length_singleton]
    omega
  have hInv : Inv (P1 G) edges ((keys G).toFinset) (edges G) 0 G [0] [] 0 := by
    refine ⟨⟨hwf, rfl⟩, fun e he => he, by simp, by simp,
      ?_, by simp, List.mem_toFinset.mpr h0, fun _ => rfl,
      fun h => absurd rfl h, ?_, ?_⟩
    · intro x hx
      simp only [List.mem_singleton] at hx
      subst hx
      exact List.mem_toFinset.mpr h0
    · simp [pairsL_nil, pairsL_single, junc_nil]
    · intro x
      constructor
      · intro hodd
        exact absurd hodd (initial_parity hwf heu x)
      · rintro ⟨_, hfalse⟩
        exact absurd rfl hfalse
  obtain ⟨GF, cF, hrun, hPF, _, hpairs, hhead0, hlast0, hlen, _⟩ :=
    hloop_main step1 (P1 G) edges ((keys G).toFinset) (edges G) 0
      hE0 step1_hfail step1_hpush step1_hpop (fuel1 G) G [0] [] 0 hInv hfuel
  have hempty : edges GF = ∅ := by
    refine hloop_conn step1 (P1 G) edges ((keys G).toFinset) (edges G)
      (fun e he => ⟨(hE0 e he).2.1, (hE0 e he).2.2.1⟩)
      step1_hpush step1_hpop (fuel1 G) G [0] [] GF cF
      ⟨hwf, rfl⟩ (fun e he => he) ?_ ?_ hrun
    · intro x hx
      simp only [List.mem_singleton] at hx
      subst hx
      exact List.mem_toFinset.mpr h0
    · intro x hx
      exact ⟨0, by simp, initial_conn hwf heu h0 x hx⟩
  refine ⟨GF, cF, ?_, hempty, ⟨?_, ?_, ?_⟩, hhead0, hlast0⟩
  · simp [euler1, heu, hrun]
  · rw [hhead0, hlast0]
  · rw [hlen, hempty, Finset.sdiff_empty]
  · rw [hpairs, hempty, Finset.sdiff_empty]

/- ---------------- Variant 3: the stepper satisfies the loop interface ---------------- -/

theorem step3_push_inv {G : Graph} {seen : List (Nat × Nat)} {cur nb : Nat}
    {seen' : List (Nat × Nat)} (h : step3 G seen cur = .push nb seen') :
    ∃ ns, lookup' G.adj cur = some ns ∧ nb ∈ ns ∧ upair cur nb ∉ seen ∧
      seen' = seen ++ [upair cur nb] := by
  unfold step3 nbr? at h
  split at h
  · exact Step.noConfusion h
  · rename_i ns hlk
    split at h
    · exact Step.noConfusion h
    · rename_i nb2 rest2 hfilt
      injection h with h1 h2
      have hmem : nb2 ∈ ns.filter (fun x => decide (upair cur x ∉ seen)) := by
        rw [hfilt]; simp
      rw [List.mem_filter] at hmem
      subst h1
      exact ⟨ns, hlk, hmem.1, by simpa using hmem.2, h2.symm⟩

theorem step3_pop_inv {G : Graph} {seen : List (Nat × Nat)} {cur : Nat}
    (h : step3 G seen cur = .pop) :
    ∃ ns, lookup' G.adj cur = some ns ∧ ∀ nb ∈ ns, upair cur nb ∈ seen := by
  unfold step3 nbr? at h
  split at h
  · exact Step.noConfusion h
  · rename_i ns hlk
    split at h
    · rename_i hfilt
      refine ⟨ns, hlk, fun nb hnb => ?_⟩
      by_contra hc
      have hmem : nb ∈ ns.filter (fun x => decide (upair cur x ∉ seen)) :=
        List.mem_filter.mpr ⟨hnb, by simpa using hc⟩
      rw [hfilt] at hmem
      exact absurd hmem (List.not_mem_nil nb)
    · exact Step.noConfusion h

theorem step3_ne_fail {G : Graph} {seen : List (Nat × Nat)} {cur : Nat}
    (hcur : cur ∈ keys G) : step3 G seen cur ≠ .fail := by
  intro h
  unfold step3 nbr? at h
  split at h
  · rename_i hlk
    exact absurd (lookup'_eq_none.mp hlk) (by simpa [keys] using hcur)
  · split at h
    · exact Step.noConfusion h
    · exact Step.noConfusion h

theorem rem3_nil (G : Graph) : rem3 G [] = edges G := by
  simp [rem3]

theorem step3_hpush {G : Graph} :
    ∀ seen cur nb seen', True → step3 G seen cur = .push nb seen' →
      True ∧ upair cur nb ∈ rem3 G seen ∧
      rem3 G seen' = (rem3 G seen).erase (upair cur nb) := by
  intro seen cur nb seen' _ hs
  obtain ⟨ns, hlk, hnb, hunseen, rfl⟩ := step3_push_inv hs
  have hw : nb ∈ nbr G cur := by rw [nbr_of_lookup hlk]; exact hnb
  refine ⟨trivial, ?_, ?_⟩
  · rw [rem3, Finset.mem_sdiff]
    exact ⟨mem_edges_of_nbr hw, by simpa using hunseen⟩
  · ext e
    simp only [rem3, Finset.mem_sdiff, Finset.mem_erase, List.toFinset_append,
      List.toFinset_cons, List.toFinset_nil, Finset.mem_union, Finset.mem_insert,
      Finset.not_mem_empty, or_false, List.mem_toFinset, not_or]
    constructor
    · rintro ⟨he, hns, hne⟩
      exact ⟨hne, he, hns⟩
    · rintro ⟨hne, he, hns⟩
      exact ⟨he, hns, hne⟩

theorem step3_hpop {G : Graph} (hwf : wfB G) :
    ∀ seen cur, True → cur ∈ (keys G).toFinset → step3 G seen cur = .pop →
      degE (rem3 G seen) cur = 0 := by
  intro seen cur _ _ hs
  obtain ⟨ns, hlk, hall⟩ := step3_pop_inv hs
  rw [degE, Finset.card_eq_zero, Finset.eq_empty_iff_forall_not_mem]
  intro e he
  rw [Finset.mem_filter, rem3, Finset.mem_sdiff] at he
  obtain ⟨⟨heE, hnseen⟩, hinc⟩ := he
  obtain ⟨a, b, hb, rfl⟩ := edges_shape hwf.1 heE
  have hends : cur = a ∨ cur = b :=
    upair_endpoints.mp (hinc.imp Eq.symm Eq.symm)
  rcases hends with rfl | rfl
  · have hbns : b ∈ ns := by rw [← nbr_of_lookup hlk]; exact hb
    exact hnseen (List.mem_toFinset.mpr (hall b hbns))
  · have hans : a ∈ ns := by rw [← nbr_of_lookup hlk]; exact hwf.symm.mp hb
    have := hall a hans
    rw [upair_comm cur a] at this
    exact hnseen (List.mem_toFinset.mpr this)

theorem step3_hfail {G : Graph} :
    ∀ seen cur, True → cur ∈ (keys G).toFinset → step3 G seen cur ≠ .fail := by
  intro seen cur _ hcur
  exact step3_ne_fail (List.mem_toFinset.mp hcur)

/-- Full correctness of Eulerian_circuit_3 on an Eulerian graph whose
node set contains the hard-coded start vertex 0; the input graph itself
is returned untouched. -/
theorem euler3_correct {G : Graph} (hwf : wfB G)
    (heu : isEulerianB G = some true) (h0 : 0 ∈ keys G) :
    ∃ c, euler3 G = .ret G (some c) ∧ goodCircuit (edges G) c ∧
      c.head? = some 0 ∧ c.getLast? = some 0 := by
  have hE0 := edges_wf_shape hwf
  have hfuel : 2 * (rem3 G []).card + ([0] : List Nat).length < fuel3 G := by
    rw [rem3_nil]
    unfold fuel3
    simp
  have hInv : Inv (fun _ => True) (rem3 G) ((keys G).toFinset) (edges G) 0
      [] [0] [] 0 := by
    refine ⟨trivial, by rw [rem3_nil], by simp, by simp,
      ?_, by simp, List.mem_toFinset.mpr h0, fun _ => rfl,
      fun h => absurd rfl h, ?_, ?_⟩
    · intro x hx
      simp only [List.mem_singleton] at hx
      subst hx
      exact List.mem_toFinset.mpr h0
    · rw [rem3_nil]
      simp [pairsL_nil, pairsL_single, junc_nil]
    · intro x
      rw [rem3_nil]
      constructor
      · intro hodd
        exact absurd hodd (initial_parity hwf heu x)
      · rintro ⟨_, hfalse⟩
        exact absurd rfl hfalse
  obtain ⟨seenF, cF, hrun, _, _, hpairs, hhead0, hlast0, hlen, _⟩ :=
    hloop_main (step3 G) (fun _ => True) (rem3 G) ((keys G).toFinset)
      (edges G) 0 hE0 step3_hfail step3_hpush (step3_hpop hwf)
      (fuel3 G) [] [0] [] 0 hInv hfuel
  have hempty : rem3 G seenF = ∅ := by
    refine hloop_conn (step3 G) (fun _ => True) (rem3 G) ((keys G).toFinset)
      (edges G) (fun e he => ⟨(hE0 e he).2.1, (hE0 e he).2.2.1⟩)
      step3_hpush (step3_hpop hwf) (fuel3 G) [] [0] [] seenF cF
      trivial (by rw [rem3_nil]) ?_ ?_ hrun
    · intro x hx
      simp only [List.mem_singleton] at hx
      subst hx
      exact List.mem_toFinset.mpr h0
    · intro x hx
      rw [rem3_nil] at hx ⊢
      exact ⟨0, by simp, initial_conn hwf heu h0 x hx⟩
  refine ⟨cF, ?_, ⟨?_, ?_, ?_⟩, hhead0, hlast0⟩
  · simp [euler3, heu, hrun]
  · rw [hhead0, hlast0]
  · rw [hlen, hempty, Finset.sdiff_empty]
  · rw [hpairs, hempty, Finset.sdiff_empty]

/- ---------------- Variant 2: matrix primitives ---------------- -/

theorem firstTrue_some : ∀ {l : List Bool} {i : Nat}, firstTrue l = some i →
    i < l.length ∧ l.getD i false = true := by
  intro l
  induction l with
  | nil => intro i h; simp [firstTrue] at h
  | cons b t ih =>
    intro i h
    cases b with
    | true =>
      rw [show firstTrue (true :: t) = some 0 from rfl] at h
      injection h with h0
      subst h0
      simp
    | false =>
      rw [show firstTrue (false :: t) = (firstTrue t).map (· + 1) from rfl,
        Option.map_eq_some'] at h
      obtain ⟨j, hj, rfl⟩ := h
      obtain ⟨h1, h2⟩ := ih hj
      constructor
      · simpa using h1
      · simpa using h2

theorem firstTrue_none : ∀ {l : List Bool}, firstTrue l = none →
    ∀ j, l.getD j false = false := by
  intro l
  induction l with
  | nil => intro _ j; simp
  | cons b t ih =>
    intro h j
    cases b with
    | true =>
      rw [show firstTrue (true :: t) = some 0 from rfl] at h
      exact Option.noConfusion h
    | false =>
      rw [show firstTrue (false :: t) = (firstTrue t).map (· + 1) from rfl,
        Option.map_eq_none'] at h
      cases j with
      | zero => simp
      | succ j2 => simpa using ih h j2

theorem getD_set_ne {α : Type} (l : List α) (i a : Nat) (x d : α)
    (h : i ≠ a) : (l.set i x).getD a d = l.getD a d := by
  induction l generalizing i a with
  | nil => simp
  | cons b t ih =>
    cases i with
    | zero =>
      cases a with
      | zero => exact absurd rfl h
      | succ a2 => simp
    | succ i2 =>
      cases a with
      | zero => simp
      | succ a2 =>
        simp only [List.set_cons_succ, List.getD_cons_succ]
        exact ih i2 a2 (fun hc => h (by rw [hc]))

theorem getD_set_self {α : Type} (l : List α) (i : Nat) (x d : α) :
    (l.set i x).getD i d = if i < l.length then x else d := by
  induction l generalizing i with
  | nil => simp
  | cons b t ih =>
    cases i with
    | zero => simp
    | succ i2 =>
      simp only [List.set_cons_succ, List.getD_cons_succ, List.length_cons]
      rw [ih i2]
      by_cases hi : i2 < t.length
      · rw [if_pos hi, if_pos (by omega)]
      · rw [if_neg hi, if_neg (by omega)]

theorem getE_setE (M : List (List Bool)) (i j a b : Nat) :
    getE (setE M i j) a b = if a = i ∧ b = j then false else getE M a b := by
  unfold getE setE
  by_cases hai : a = i
  · subst hai
    rw [getD_set_self]
    by_cases hlt : a < M.length
    · rw [if_pos hlt]
      by_cases hbj : b = j
      · subst hbj
        rw [getD_set_self]
        split <;> simp
      · rw [getD_set_ne _ _ _ _ _ (fun hc => hbj hc.symm),
          if_neg (fun hc => hbj hc.2)]
    · rw [if_neg hlt]
      have hM : M.getD a [] = ([] : List Bool) :=
        List.getD_eq_default _ _ (by omega)
      rw [hM]
      split <;> simp
  · rw [getD_set_ne _ _ _ _ _ (fun hc => hai hc.symm),
      if_neg (fun hc => hai hc.1)]

theorem clear2_length (M : List (List Bool)) (cur w : Nat) :
    (clear2 M cur w).length = M.length := by
  simp [clear2, setE, List.length_set]

theorem getE_clear2 (M : List (List Bool)) (cur w a b : Nat) :
    getE (clear2 M cur w) a b =
      if (a = cur ∧ b = w) ∨ (a = w ∧ b = cur) then false
      else getE M a b := by
  unfold clear2
  rw [getE_setE, getE_setE]
  by_cases h1 : a = w ∧ b = cur
  · simp [h1]
  · rw [if_neg h1]
    by_cases h2 : a = cur ∧ b = w
    · simp [h2]
    · rw [if_neg h2, if_neg ?_]
      intro hc
      exact hc.elim h2 h1

theorem step2_push_inv {M : List (List Bool)} {cur w : Nat}
    {M' : List (List Bool)} (h : step2 M cur = .push w M') :
    getE M cur w = true ∧ w < (M.getD cur []).length ∧ cur < M.length ∧
      M' = clear2 M cur w := by
  unfold step2 at h
  split at h
  · exact Step.noConfusion h
  · rename_i w2 hft
    injection h with h1 h2
    subst h1
    obtain ⟨hlt, hget⟩ := firstTrue_some hft
    have hcur : cur < M.length := by
      by_contra hc
      push_neg at hc
      rw [List.getD_eq_default _ _ hc] at hlt
      simp at hlt
    exact ⟨hget, hlt, hcur, h2.symm⟩

theorem step2_pop_inv {M : List (List Bool)} {cur : Nat}
    (h : step2 M cur = .pop) : ∀ j, getE M cur j = false := by
  unfold step2 at h
  split at h
  · rename_i hft
    intro j
    exact firstTrue_none hft j
  · exact Step.noConfusion h

theorem step2_ne_fail (M : List (List Bool)) (cur : Nat) :
    step2 M cur ≠ .fail := by
  unfold step2
  split <;> simp

theorem mem_remM {M : List (List Bool)} {e : Nat × Nat} :
    e ∈ remM M ↔ ∃ i j, i < M.length ∧ j < M.length ∧
      getE M i j = true ∧ e = upair i j := by
  unfold remM
  simp only [List.mem_toFinset, List.mem_flatMap, List.mem_map,
    List.mem_filter, List.mem_range]
  constructor
  · rintro ⟨i, hi, j, ⟨hj, hget⟩, heq⟩
    exact ⟨i, j, hi, hj, hget, heq.symm⟩
  · rintro ⟨i, j, hi, hj, hget, rfl⟩
    exact ⟨i, hi, j, ⟨hj, hget⟩, rfl⟩

theorem remM_clear2 {M : List (List Bool)} {cur w : Nat}
    (hget : getE M cur w = true) (hcur : cur < M.length)
    (hw : w < M.length) :
    remM (clear2 M cur w) = (remM M).erase (upair cur w) := by
  ext e
  rw [Finset.mem_erase, mem_remM, mem_remM]
  constructor
  · rintro ⟨i, j, hi, hj, hg, rfl⟩
    rw [clear2_length] at hi hj
    rw [getE_clear2] at hg
    have hcond : ¬((i = cur ∧ j = w) ∨ (i = w ∧ j = cur)) := by
      intro hc
      rw [if_pos hc] at hg
      exact Bool.noConfusion hg
    rw [if_neg hcond] at hg
    refine ⟨?_, i, j, hi, hj, hg, rfl⟩
    intro hc
    rcases upair_eq_iff.mp hc with ⟨rfl, rfl⟩ | ⟨rfl, rfl⟩
    · exact hcond (Or.inl ⟨rfl, rfl⟩)
    · exact hcond (Or.inr ⟨rfl, rfl⟩)
  · rintro ⟨hne, i, j, hi, hj, hg, rfl⟩
    refine ⟨i, j, ?_, ?_, ?_, rfl⟩
    · rw [clear2_length]; exact hi
    · rw [clear2_length]; exact hj
    · rw [getE_clear2, if_neg ?_]
      · exact hg
      · intro hc
        apply hne
        rcases hc with ⟨rfl, rfl⟩ | ⟨rfl, rfl⟩
        · rfl
        · exact upair_comm _ _

theorem sqMat_setE {n : Nat} {M : List (List Bool)} (h : sqMat n M)
    (i j : Nat) : sqMat n (setE M i j) := by
  by_cases hi : i < M.length
  · constructor
    · rw [setE, List.length_set]; exact h.1
    · intro row hrow
      rcases List.mem_or_eq_of_mem_set hrow with h2 | rfl
      · exact h.2 _ h2
      · rw [List.length_set]
        refine h.2 _ ?_
        rw [List.getD_eq_getElem _ _ hi]
        exact List.getElem_mem _
  · rw [setE, List.set_eq_of_length_le (by omega)]
    exact h

theorem sqMat_clear2 {n : Nat} {M : List (List Bool)} (h : sqMat n M)
    (cur w : Nat) : sqMat n (clear2 M cur w) :=
  sqMat_setE (sqMat_setE h cur w) w cur

theorem symMat_clear2 {M : List (List Bool)} (h : symMat M) (cur w : Nat) :
    symMat (clear2 M cur w) := by
  constructor
  · intro i j
    rw [getE_clear2, getE_clear2, h.1 i j]
    by_cases hc : (i = cur ∧ j = w) ∨ (i = w ∧ j = cur)
    · rw [if_pos hc, if_pos (by tauto)]
    · rw [if_neg hc, if_neg (by tauto)]
  · intro i
    rw [getE_clear2]
    split
    · rfl
    · exact h.2 i

theorem step2_hpush {n : Nat} :
    ∀ M cur w M', (sqMat n M ∧ symMat M) → step2 M cur = .push w M' →
      (sqMat n M' ∧ symMat M') ∧ upair cur w ∈ remM M ∧
      remM M' = (remM M).erase (upair cur w) := by
  intro M cur w M' hP hs
  obtain ⟨hget, hwrow, hcur, rfl⟩ := step2_push_inv hs
  have hrow : (M.getD cur []).length = n := by
    refine hP.1.2 _ ?_
    rw [List.getD_eq_getElem _ _ hcur]
    exact List.getElem_mem _
  have hw : w < M.length := by
    rw [hP.1.1]
    rw [hrow] at hwrow
    exact hwrow
  exact ⟨⟨sqMat_clear2 hP.1 cur w, symMat_clear2 hP.2 cur w⟩,
    mem_remM.mpr ⟨cur, w, hcur, hw, hget, rfl⟩, remM_clear2 hget hcur hw⟩

theorem step2_hpop {n : Nat} :
    ∀ M cur, (sqMat n M ∧ symMat M) → cur ∈ Finset.range n →
      step2 M cur = .pop → degE (remM M) cur = 0 := by
  intro M cur hP _ hs
  have hall := step2_pop_inv hs
  rw [degE, Finset.card_eq_zero, Finset.eq_empty_iff_forall_not_mem]
  intro e he
  rw [Finset.mem_filter] at he
  obtain ⟨hmem, hinc⟩ := he
  obtain ⟨i, j, hi, hj, hget, rfl⟩ := mem_remM.mp hmem
  have hends : cur = i ∨ cur = j :=
    upair_endpoints.mp (hinc.imp Eq.symm Eq.symm)
  rcases hends with rfl | rfl
  · rw [hall j] at hget
    exact Bool.noConfusion hget
  · rw [hP.2.1 i cur, hall i] at hget
    exact Bool.noConfusion hget

theorem step2_hfail {n : Nat} :
    ∀ M cur, (sqMat n M ∧ symMat M) → cur ∈ Finset.range n →
      step2 M cur ≠ .fail :=
  fun M cur _ _ => step2_ne_fail M cur

/- ---------------- The adjacency matrix of the graph ---------------- -/

theorem buildMatrix_length (G : Graph) :
    (buildMatrix G).length = (keys G).length := by
  simp [buildMatrix]

theorem buildMatrix_sq (G : Graph) : sqMat (keys G).length (buildMatrix G) := by
  refine ⟨buildMatrix_length G, ?_⟩
  intro row hrow
  obtain ⟨v, _, rfl⟩ := List.mem_map.mp hrow
  simp

theorem getE_buildMatrix (G : Graph) {i j : Nat} (hi : i < (keys G).length)
    (hj : j < (keys G).length) :
    getE (buildMatrix G) i j = decide (nodeAt G j ∈ nbr G (nodeAt G i)) := by
  have hrowD : (buildMatrix G).getD i [] =
      (keys G).map (fun w => decide (w ∈ nbr G (nodeAt G i))) := by
    unfold buildMatrix
    rw [List.getD_eq_getElem _ _ (by simpa using hi), List.getElem_map]
    unfold nodeAt
    rw [List.getD_eq_getElem _ _ hi]
  unfold getE
  rw [hrowD, List.getD_eq_getElem _ _ (by simpa using hj), List.getElem_map]
  unfold nodeAt
  rw [List.getD_eq_getElem _ _ hj]

theorem getE_buildMatrix_oob (G : Graph) {i j : Nat}
    (h : ¬(i < (keys G).length ∧ j < (keys G).length)) :
    getE (buildMatrix G) i j = false := by
  by_cases hi : i < (keys G).length
  · have hj : ¬ j < (keys G).length := fun hj => h ⟨hi, hj⟩
    have hrow : ((buildMatrix G).getD i []).length = (keys G).length := by
      refine (buildMatrix_sq G).2 _ ?_
      rw [List.getD_eq_getElem _ _ (by simpa [buildMatrix] using hi)]
      exact List.getElem_mem _
    unfold getE
    exact List.getD_eq_default _ _ (by omega)
  · unfold getE
    have hrow : (buildMatrix G).getD i [] = [] :=
      List.getD_eq_default _ _ (by simp [buildMatrix]; omega)
    rw [hrow]
    simp

theorem nodeAt_mem_keys {G : Graph} {i : Nat} (hi : i < (keys G).length) :
    nodeAt G i ∈ keys G := by
  unfold nodeAt
  rw [List.getD_eq_getElem _ _ hi]
  exact List.getElem_mem _

theorem buildMatrix_sym {G : Graph} (hwf : wfB G) :
    symMat (buildMatrix G) := by
  constructor
  · intro i j
    by_cases hi : i < (keys G).length
    · by_cases hj : j < (keys G).length
      · rw [getE_buildMatrix G hi hj, getE_buildMatrix G hj hi]
        simp only [decide_eq_decide]
        exact hwf.symm
      · rw [getE_buildMatrix_oob G (fun hc => hj hc.2),
          getE_buildMatrix_oob G (fun hc => hj hc.1)]
    · rw [getE_buildMatrix_oob G (fun hc => hi hc.1),
        getE_buildMatrix_oob G (fun hc => hi hc.2)]
  · intro i
    by_cases hi : i < (keys G).length
    · rw [getE_buildMatrix G hi hi]
      simp only [decide_eq_false_iff_not]
      exact hwf.not_self _
    · exact getE_buildMatrix_oob G (fun hc => hi hc.1)

/-- The index edge set of the start matrix: every edge of it is a
non-degenerate normalized pair of indices below n. -/
theorem remM_buildMatrix_shape {G : Graph} (hwf : wfB G) :
    ∀ e ∈ remM (buildMatrix G), e.1 ≠ e.2 ∧
      e.1 ∈ Finset.range (keys G).length ∧
      e.2 ∈ Finset.range (keys G).length ∧ e = upair e.1 e.2 := by
  intro e he
  obtain ⟨i, j, hi, hj, hget, rfl⟩ := mem_remM.mp he
  rw [buildMatrix_length] at hi hj
  have hij : i ≠ j := by
    intro hc
    subst hc
    rw [(buildMatrix_sym hwf).2 i] at hget
    exact Bool.noConfusion hget
  have h1 : (upair i j).1 = i ∨ (upair i j).1 = j :=
    upair_endpoints.mp (Or.inl rfl)
  have h2 : (upair i j).2 = i ∨ (upair i j).2 = j :=
    upair_endpoints.mp (Or.inr rfl)
  refine ⟨upair_fst_ne_snd hij, ?_, ?_, (upair_norm i j).symm⟩
  · rcases h1 with h | h <;> rw [h] <;> exact Finset.mem_range.mpr (by assumption)
  · rcases h2 with h | h <;> rw [h] <;> exact Finset.mem_range.mpr (by assumption)

/-- Transport of vertex degrees to matrix-index degrees: the index
degree of i in the start matrix is the degree of the i-th node. -/
theorem degE_remM_buildMatrix {G : Graph} (hwf : wfB G) {x : Nat}
    (hx : x < (keys G).length) :
    degE (remM (buildMatrix G)) x = degree G (nodeAt G x) := by
  have hset : (remM (buildMatrix G)).filter (fun e => e.1 = x ∨ e.2 = x) =
      ((Finset.range (keys G).length).filter
        (fun j => getE (buildMatrix G) x j = true)).image (fun j => upair x j) := by
    ext e
    simp only [Finset.mem_filter, Finset.mem_image, Finset.mem_range]
    constructor
    · rintro ⟨hmem, hinc⟩
      obtain ⟨i, j, hi, hj, hget, rfl⟩ := mem_remM.mp hmem
      rw [buildMatrix_length] at hi hj
      have hends : x = i ∨ x = j :=
        upair_endpoints.mp (hinc.imp Eq.symm Eq.symm)
      rcases hends with rfl | rfl
      · exact ⟨j, ⟨hj, hget⟩, rfl⟩
      · refine ⟨i, ⟨hi, ?_⟩, upair_comm x i⟩
        rw [← (buildMatrix_sym hwf).1 i x]
        exact hget
    · rintro ⟨j, ⟨hj, hget⟩, rfl⟩
      refine ⟨mem_remM.mpr ⟨x, j, ?_, ?_, hget, rfl⟩, ?_⟩
      · rw [buildMatrix_length]; exact hx
      · rw [buildMatrix_length]; exact hj
      · exact ((upair_endpoints (x := x) (a := x) (b := j)).mpr
          (Or.inl rfl)).imp Eq.symm Eq.symm
  rw [degE, hset, Finset.card_image_of_injOn]
  · -- the true entries of row x count the neighbours of node x
    have hbij : ((Finset.range (keys G).length).filter
        (fun j => getE (buildMatrix G) x j = true)).card =
        ((nbr G (nodeAt G x)).toFinset).card := by
      apply Finset.card_bij (fun j _ => nodeAt G j)
      · intro j hj
        rw [Finset.mem_filter, Finset.mem_range] at hj
        rw [getE_buildMatrix G hx hj.1, decide_eq_true_eq] at hj
        exact List.mem_toFinset.mpr hj.2
      · intro j1 hj1 j2 hj2 heq
        rw [Finset.mem_filter, Finset.mem_range] at hj1 hj2
        unfold nodeAt at heq
        rw [List.getD_eq_getElem _ _ hj1.1, List.getD_eq_getElem _ _ hj2.1] at heq
        exact (List.Nodup.getElem_inj_iff hwf.1).mp heq
      · intro b hb
        rw [List.mem_toFinset] at hb
        have hbK : b ∈ keys G := hwf.nbr_sub_keys hb
        obtain ⟨⟨j, hjlt⟩, hjb⟩ := List.mem_iff_get.mp hbK
        simp only [List.get_eq_getElem] at hjb
        refine ⟨j, ?_, ?_⟩
        · rw [Finset.mem_filter, Finset.mem_range]
          refine ⟨hjlt, ?_⟩
          rw [getE_buildMatrix G hx hjlt, decide_eq_true_eq]
          unfold nodeAt
          rw [List.getD_eq_getElem _ _ hjlt, hjb]
          exact hb
        · unfold nodeAt
          rw [List.getD_eq_getElem _ _ hjlt, hjb]
    rw [hbij, List.toFinset_card_of_nodup (hwf.nbr_nodup _)]
    rfl
  · intro j1 hj1 j2 hj2 heq
    rcases upair_eq_iff.mp heq with ⟨_, h⟩ | ⟨hx1, h⟩
    · exact h
    · exact h.trans hx1

theorem degE_remM_buildMatrix_oob {G : Graph} (hwf : wfB G) {x : Nat}
    (hx : ¬ x < (keys G).length) :
    degE (remM (buildMatrix G)) x = 0 := by
  rw [degE, Finset.card_eq_zero, Finset.eq_empty_iff_forall_not_mem]
  intro e he
  rw [Finset.mem_filter] at he
  obtain ⟨h1, h2, h3, _⟩ := remM_buildMatrix_shape hwf e he.1
  rw [Finset.mem_range] at h2 h3
  rcases he.2 with h | h
  · exact hx (h ▸ h2)
  · exact hx (h ▸ h3)

/-- When the node list is exactly 0..n-1 in order, the matrix index
edges are the graph edges themselves. -/
theorem remM_buildMatrix_range {G : Graph} (hwf : wfB G)
    (hk : keys G = List.range (keys G).length) :
    remM (buildMatrix G) = edges G := by
  have hnA : ∀ m, m < (keys G).length → nodeAt G m = m := by
    intro m hm
    unfold nodeAt
    conv_lhs => rw [hk]
    rw [List.getD_eq_getElem _ _ (by simpa using hm)]
    exact List.getElem_range ..
  ext e
  rw [mem_remM]
  constructor
  · rintro ⟨i, j, hi, hj, hget, rfl⟩
    rw [buildMatrix_length] at hi hj
    rw [getE_buildMatrix G hi hj, decide_eq_true_eq, hnA i hi, hnA j hj] at hget
    exact mem_edges_of_nbr hget
  · intro he
    obtain ⟨a, b, hb, rfl⟩ := edges_shape hwf.1 he
    have haK : a ∈ keys G := mem_keys_of_nbr hb
    have hbK : b ∈ keys G := hwf.nbr_sub_keys hb
    have ha : a < (keys G).length := by
      rw [hk] at haK; simpa using haK
    have hbn : b < (keys G).length := by
      rw [hk] at hbK; simpa using hbK
    refine ⟨a, b, ?_, ?_, ?_, rfl⟩
    · rw [buildMatrix_length]; exact ha
    · rw [buildMatrix_length]; exact hbn
    · rw [getE_buildMatrix G ha hbn, decide_eq_true_eq, hnA a ha, hnA b hbn]
      exact hb

/- ---------------- Counting nonzero entries ---------------- -/

theorem count_range_getD (row : List Bool) :
    ((List.range row.length).filter (fun j => row.getD j false)).length =
      row.countP (fun b => b) := by
  induction row with
  | nil => simp
  | cons b t ih =>
    rw [List.length_cons, List.range_succ_eq_map, List.filter_cons]
    have hmap : ((List.range t.length).map Nat.succ).filter
        (fun j => (b :: t).getD j false) =
        ((List.range t.length).filter (fun j => t.getD j false)).map Nat.succ := by
      rw [List.filter_map]
      congr 1
    cases b with
    | true =>
      rw [if_pos (by rfl), hmap, List.length_cons, List.length_map, ih,
        List.countP_cons]
      simp
    | false =>
      rw [if_neg (by simp), hmap, List.length_map, ih, List.countP_cons]
      simp

theorem map_getD_range {α β : Type} (l : List α) (d : α) (g : α → β) :
    (List.range l.length).map (fun i => g (l.getD i d)) = l.map g := by
  induction l with
  | nil => simp
  | cons a t ih =>
    rw [List.length_cons, List.range_succ_eq_map, List.map_cons, List.map_map]
    congr 1

theorem remM_card_le_totalTrue {n : Nat} {M : List (List Bool)}
    (h : sqMat n M) : (remM M).card ≤ totalTrue M := by
  unfold remM
  refine le_trans (List.toFinset_card_le _) ?_
  rw [List.length_flatMap]
  have hpt : ∀ i ∈ List.range M.length,
      ((((List.range M.length).filter (fun j => getE M i j)).map
        (fun j => upair i j)).length) =
      (M.getD i []).countP (fun b => b) := by
    intro i hi
    rw [List.length_map]
    have hrl : (M.getD i []).length = n := by
      refine h.2 _ ?_
      rw [List.getD_eq_getElem _ _ (List.mem_range.mp hi)]
      exact List.getElem_mem _
    have hc := count_range_getD (M.getD i [])
    rw [hrl] at hc
    rw [h.1]
    exact hc
  simp only [Function.comp_def]
  rw [List.map_congr_left hpt, map_getD_range]
  exact le_refl _

theorem countP_set_false_le (row : List Bool) (j : Nat) :
    (row.set j false).countP (fun b => b) ≤ row.countP (fun b => b) := by
  induction row generalizing j with
  | nil => simp
  | cons b t ih =>
    cases j with
    | zero =>
      simp only [List.set_cons_zero, List.countP_cons]
      cases b <;> simp
    | succ j2 =>
      simp only [List.set_cons_succ, List.countP_cons]
      exact Nat.add_le_add_right (ih j2) _

theorem countP_set_false_lt {row : List Bool} {j : Nat} (hj : j < row.length)
    (ht : row.getD j false = true) :
    (row.set j false).countP (fun b => b) < row.countP (fun b => b) := by
  induction row generalizing j with
  | nil => simp at hj
  | cons b t ih =>
    cases j with
    | zero =>
      have hb : b = true := ht
      subst hb
      simp [List.countP_cons]
    | succ j2 =>
      have := ih (j := j2) (by simpa using hj) (by simpa using ht)
      simp only [List.set_cons_succ, List.countP_cons]
      omega

theorem totalTrue_setE_le (M : List (List Bool)) (i j : Nat) :
    totalTrue (setE M i j) ≤ totalTrue M := by
  unfold totalTrue setE
  induction M generalizing i with
  | nil => simp
  | cons row t ih =>
    cases i with
    | zero =>
      simp only [List.getD_cons_zero, List.set_cons_zero, List.map_cons,
        List.sum_cons]
      exact Nat.add_le_add (countP_set_false_le row j) (le_refl _)
    | succ i2 =>
      simp only [List.getD_cons_succ, List.set_cons_succ, List.map_cons,
        List.sum_cons]
      exact Nat.add_le_add (le_refl _) (ih i2)

theorem totalTrue_setE_lt {M : List (List Bool)} {i j : Nat}
    (hget : getE M i j = true) : totalTrue (setE M i j) < totalTrue M := by
  induction M generalizing i with
  | nil => simp [getE] at hget
  | cons row t ih =>
    cases i with
    | zero =>
      unfold totalTrue setE
      simp only [List.getD_cons_zero, List.set_cons_zero, List.map_cons,
        List.sum_cons]
      have hj : j < row.length := by
        by_contra hc
        push_neg at hc
        unfold getE at hget
        simp only [List.getD_cons_zero] at hget
        rw [List.getD_eq_default _ _ hc] at hget
        exact Bool.noConfusion hget
      have hv : row.getD j false = true := by
        unfold getE at hget
        simpa using hget
      have := countP_set_false_lt hj hv
      omega
    | succ i2 =>
      have hget2 : getE t i2 j = true := hget
      have := ih hget2
      unfold totalTrue setE at this ⊢
      simp only [List.getD_cons_succ, List.set_cons_succ, List.map_cons,
        List.sum_cons]
      omega

theorem totalTrue_clear2_lt {M : List (List Bool)} {cur w : Nat}
    (hget : getE M cur w = true) :
    totalTrue (clear2 M cur w) < totalTrue M :=
  lt_of_le_of_lt (totalTrue_setE_le _ w cur) (totalTrue_setE_lt hget)

/-- Every vertex the matrix loop ever records is a row/column index. -/
theorem hloop2_bounds {n : Nat} :
    ∀ fuel M stack circuit MF cF, sqMat n M → (∀ x ∈ stack, x < n) →
      (∀ x ∈ circuit, x < n) →
      hloop step2 fuel M stack circuit = .done MF cF → ∀ x ∈ cF, x < n := by
  intro fuel
  induction fuel with
  | zero => intro M stack c MF cF _ _ _ h; simp [hloop] at h
  | succ f ih =>
    intro M stack c MF cF hsq hst hcir hrun
    cases stack with
    | nil =>
      simp only [hloop, LRes.done.injEq] at hrun
      obtain ⟨_, rfl⟩ := hrun
      exact hcir
    | cons cur rest =>
      cases hs : step2 M cur with
      | fail => simp [hloop, hs] at hrun
      | pop =>
        refine ih M rest (c ++ [cur]) MF cF hsq
          (fun x hx => hst x (List.mem_cons_of_mem _ hx)) ?_
          (by simpa [hloop, hs] using hrun)
        intro x hx
        rcases List.mem_append.mp hx with h | h
        · exact hcir x h
        · simp only [List.mem_singleton] at h
          subst h
          exact hst _ (by simp)
      | push w M2 =>
        obtain ⟨hget, hwrow, hcur, rfl⟩ := step2_push_inv hs
        have hwn : w < n := by
          have hrl : (M.getD cur []).length = n := by
            refine hsq.2 _ ?_
            rw [List.getD_eq_getElem _ _ hcur]
            exact List.getElem_mem _
          omega
        refine ih (clear2 M cur w) (w :: cur :: rest) c MF cF
          (sqMat_clear2 hsq cur w) ?_ hcir
          (by simpa [hloop, hs] using hrun)
        intro x hx
        rcases List.mem_cons.mp hx with rfl | hx2
        · exact hwn
        · exact hst x hx2

/-- Full correctness of Eulerian_circuit_2 when the node list in matrix
order is exactly 0..n-1, so that matrix indices are the node labels. -/
theorem euler2_range_correct {G : Graph} (hwf : wfB G)
    (heu : isEulerianB G = some true)
    (hk : keys G = List.range (keys G).length) :
    ∃ c, euler2 G = .ret G (some c) ∧ goodCircuit (edges G) c ∧
      c.head? = some 0 ∧ c.getLast? = some 0 := by
  have hkne : keys G ≠ [] := (isEulerianB_true heu).1
  have hn : 0 < (keys G).length := List.length_pos.mpr hkne
  have h0 : 0 ∈ keys G := by
    rw [hk]; exact List.mem_range.mpr hn
  have hrem0 : remM (buildMatrix G) = edges G := remM_buildMatrix_range hwf hk
  have hE0 : ∀ e ∈ edges G, e.1 ≠ e.2 ∧ e.1 ∈ Finset.range (keys G).length ∧
      e.2 ∈ Finset.range (keys G).length ∧ e = upair e.1 e.2 := by
    intro e he
    obtain ⟨h1, h2, h3, h4⟩ := edges_wf_shape hwf e he
    rw [hk] at h2 h3
    refine ⟨h1, ?_, ?_, h4⟩
    · exact Finset.mem_range.mpr (List.mem_range.mp (List.mem_toFinset.mp h2))
    · exact Finset.mem_range.mpr (List.mem_range.mp (List.mem_toFinset.mp h3))
  have hP0 : sqMat (keys G).length (buildMatrix G) ∧ symMat (buildMatrix G) :=
    ⟨buildMatrix_sq G, buildMatrix_sym hwf⟩
  have hfuel : 2 * (remM (buildMatrix G)).card + ([0] : List Nat).length <
      fuel2 (buildMatrix G) := by
    have := remM_card_le_totalTrue (hP0.1)
    unfold fuel2
    simp only [List.length_singleton]
    omega
  have hInv : Inv (fun M => sqMat (keys G).length M ∧ symMat M) remM
      (Finset.range (keys G).length) (edges G) 0
      (buildMatrix G) [0] [] 0 := by
    refine ⟨hP0, by rw [hrem0], by simp, by simp,
      ?_, by simp, Finset.mem_range.mpr hn, fun _ => rfl,
      fun h => absurd rfl h, ?_, ?_⟩
    · intro x hx
      simp only [List.mem_singleton] at hx
      subst hx
      exact Finset.mem_range.mpr hn
    · rw [hrem0]
      simp [pairsL_nil, pairsL_single, junc_nil]
    · intro x
      rw [hrem0]
      constructor
      · intro hodd
        exact absurd hodd (initial_parity hwf heu x)
      · rintro ⟨_, hfalse⟩
        exact absurd rfl hfalse
  obtain ⟨MF, cF, hrun, _, _, hpairs, hhead0, hlast0, hlen, _⟩ :=
    hloop_main step2 (fun M => sqMat (keys G).length M ∧ symMat M) remM
      (Finset.range (keys G).length) (edges G) 0
      hE0 step2_hfail step2_hpush step2_hpop
      (fuel2 (buildMatrix G)) (buildMatrix G) [0] [] 0 hInv hfuel
  have hempty : remM MF = ∅ := by
    refine hloop_conn step2 (fun M => sqMat (keys G).length M ∧ symMat M) remM
      (Finset.range (keys G).length) (edges G)
      (fun e he => ⟨(hE0 e he).2.1, (hE0 e he).2.2.1⟩)
      step2_hpush step2_hpop (fuel2 (buildMatrix G)) (buildMatrix G) [0] []
      MF cF hP0 (by rw [hrem0]) ?_ ?_ hrun
    · intro x hx
      simp only [List.mem_singleton] at hx
      subst hx
      exact Finset.mem_range.mpr hn
    · intro x hx
      rw [hrem0] at hx ⊢
      exact ⟨0, by simp, initial_conn hwf heu h0 x hx⟩
  refine ⟨cF, ?_, ⟨?_, ?_, ?_⟩, hhead0, hlast0⟩
  · simp [euler2, heu, hrun]
  · rw [hhead0, hlast0]
  · rw [hlen, hempty, Finset.sdiff_empty]
  · rw [hpairs, hempty, Finset.sdiff_empty]

/-- Eulerian_circuit_2 on any Eulerian graph returns a circuit starting
and ending at index 0 (the hard-coded start), whatever the node labels. -/
theorem euler2_start {G : Graph} (hwf : wfB G)
    (heu : isEulerianB G = some true) :
    ∃ c, euler2 G = .ret G (some c) ∧ c.head? = some 0 ∧
      c.getLast? = some 0 := by
  obtain ⟨hkne, heven, _⟩ := isEulerianB_true heu
  have hn : 0 < (keys G).length := List.length_pos.mpr hkne
  have hE0 := remM_buildMatrix_shape hwf
  have hP0 : sqMat (keys G).length (buildMatrix G) ∧ symMat (buildMatrix G) :=
    ⟨buildMatrix_sq G, buildMatrix_sym hwf⟩
  have hfuel : 2 * (remM (buildMatrix G)).card + ([0] : List Nat).length <
      fuel2 (buildMatrix G) := by
    have := remM_card_le_totalTrue (hP0.1)
    unfold fuel2
    simp only [List.length_singleton]
    omega
  have hInv : Inv (fun M => sqMat (keys G).length M ∧ symMat M) remM
      (Finset.range (keys G).length) (remM (buildMatrix G)) 0
      (buildMatrix G) [0] [] 0 := by
    refine ⟨hP0, fun e he => he, by simp, by simp,
      ?_, by simp, Finset.mem_range.mpr hn, fun _ => rfl,
      fun h => absurd rfl h, ?_, ?_⟩
    · intro x hx
      simp only [List.mem_singleton] at hx
      subst hx
      exact Finset.mem_range.mpr hn
    · simp [pairsL_nil, pairsL_single, junc_nil]
    · intro x
      constructor
      · intro hodd
        by_cases hx : x < (keys G).length
        · rw [degE_remM_buildMatrix hwf hx] at hodd
          have := heven _ (nodeAt_mem_keys hx)
          rw [Nat.odd_iff] at hodd
          rw [Nat.even_iff] at this
          omega
        · rw [degE_remM_buildMatrix_oob hwf hx] at hodd
          simp [Nat.odd_iff] at hodd
      · rintro ⟨_, hfalse⟩
        exact absurd rfl hfalse
  obtain ⟨MF, cF, hrun, _, _, _, hhead0, hlast0, _, _⟩ :=
    hloop_main step2 (fun M => sqMat (keys G).length M ∧ symMat M) remM
      (Finset.range (keys G).length) (remM (buildMatrix G)) 0
      hE0 step2_hfail step2_hpush step2_hpop
      (fuel2 (buildMatrix G)) (buildMatrix G) [0] [] 0 hInv hfuel
  refine ⟨cF, ?_, hhead0, hlast0⟩
  simp [euler2, heu, hrun]

/- ---------------- No builder runs out of fuel ---------------- -/

theorem euler1_ne_dnf (G : Graph) : euler1 G ≠ .dnf := by
  unfold euler1
  rcases h : isEulerianB G with _ | b
  · simp
  · cases b
    · simp
    · have hterm := hloop_ne_out step1 adjSize (fun _ => True)
        (fun st cur w st' _ hs => ⟨trivial, adjSize_step1_lt hs⟩)
        (fuel1 G) G [0] [] trivial
        (by simp only [fuel1, List.length_singleton]; omega)
      rcases hr : hloop step1 (fuel1 G) G [0] [] with _ | G' | ⟨G', c⟩
      · exact absurd hr hterm
      · simp [hr]
      · simp [hr]

theorem euler2_ne_dnf (G : Graph) : euler2 G ≠ .dnf := by
  unfold euler2
  rcases h : isEulerianB G with _ | b
  · simp
  · cases b
    · simp
    · have hterm := hloop_ne_out step2 totalTrue (fun _ => True)
        (fun st cur w st' _ hs => by
          obtain ⟨hget, _, _, rfl⟩ := step2_push_inv hs
          exact ⟨trivial, totalTrue_clear2_lt hget⟩)
        (fuel2 (buildMatrix G)) (buildMatrix G) [0] [] trivial
        (by simp only [fuel2, List.length_singleton]; omega)
      rcases hr : hloop step2 (fuel2 (buildMatrix G)) (buildMatrix G) [0] []
        with _ | M' | ⟨M', c⟩
      · exact absurd hr hterm
      · simp [hr]
      · simp [hr]

theorem euler3_ne_dnf (G : Graph) : euler3 G ≠ .dnf := by
  unfold euler3
  rcases h : isEulerianB G with _ | b
  · simp
  · cases b
    · simp
    · have hterm := hloop_ne_out (step3 G)
        (fun seen => (edges G).card - seen.length) (P3 G)
        (fun seen cur nb seen' hP hs => by
          obtain ⟨ns, hlk, hnb, hunseen, rfl⟩ := step3_push_inv hs
          have hw : nb ∈ nbr G cur := by
            rw [nbr_of_lookup hlk]; exact hnb
          have heE : upair cur nb ∈ edges G := mem_edges_of_nbr hw
          have hsubF : seen.toFinset ⊆ edges G := by
            intro e he
            exact hP.2 e (List.mem_toFinset.mp he)
          have hcard : seen.length < (edges G).card := by
            have h1 : insert (upair cur nb) seen.toFinset ⊆ edges G := by
              intro e he
              rcases Finset.mem_insert.mp he with rfl | he2
              · exact heE
              · exact hsubF he2
            have h2 : (insert (upair cur nb) seen.toFinset).card =
                seen.length + 1 := by
              rw [Finset.card_insert_of_not_mem (by simpa using hunseen),
                List.toFinset_card_of_nodup hP.1]
            have h3 := Finset.card_le_card h1
            omega
          refine ⟨⟨?_, ?_⟩, ?_⟩
          · simp [List.nodup_append, hP.1, hunseen]
          · intro e he
            rcases List.mem_append.mp he with he2 | he2
            · exact hP.2 e he2
            · simp only [List.mem_singleton] at he2
              subst he2
              exact heE
          · simp only [List.length_append, List.length_singleton]
            omega)
        (fuel3 G) [] [0] [] ⟨List.nodup_nil, by simp⟩
        (by simp only [fuel3, List.length_singleton, List.length_nil]; omega)
      rcases hr : hloop (step3 G) (fuel3 G) [] [0] [] with _ | s' | ⟨s', c⟩
      · exact absurd hr hterm
      · simp [hr]
      · simp [hr]

/- ---------------- The breadth-first search of
all_positive_degree_vertices_connected ---------------- -/

theorem sum_map_one_add (l : List (Nat × List Nat)) :
    (l.map (fun p => 1 + p.2.length)).sum =
      l.length + (l.map (fun p => p.2.length)).sum := by
  induction l with
  | nil => simp
  | cons p t ih =>
    simp only [List.map_cons, List.sum_cons, List.length_cons, ih]
    omega

/-- Sum of the per-node budgets 1 + degree over all nodes. -/
theorem sum_one_add_degree {G : Graph} (hwf : wfB G) :
    ((keys G).toFinset.sum (fun v => 1 + degree G v)) =
      (keys G).length + adjSize G := by
  rw [List.sum_toFinset _ hwf.1]
  have hmap : (keys G).map (fun v => 1 + degree G v) =
      G.adj.map (fun p => 1 + p.2.length) := by
    rw [keys, List.map_map]
    refine List.map_congr_left ?_
    intro p hp
    simp only [Function.comp_apply]
    rw [show degree G p.1 = p.2.length from by rw [degree, nbr_of_entry hwf.1 hp]]
  rw [hmap, sum_map_one_add]
  rw [show (keys G).length = G.adj.length from by rw [keys, List.length_map]]
  rfl

/-- The breadth-first loop terminates within the given fuel. -/
theorem bfs_terminates {G : Graph} (hwf : wfB G) :
    ∀ fuel queue seen, (∀ x ∈ queue, x ∈ keys G) →
      bfsM G queue seen < fuel →
      ∃ s, bfsLoop G fuel queue seen = some s := by
  intro fuel
  induction fuel with
  | zero => intro queue seen _ h; omega
  | succ f ih =>
    intro queue seen hq h
    cases queue with
    | nil => exact ⟨seen, by simp [bfsLoop]⟩
    | cons cur rest =>
      by_cases hc : cur ∈ seen
      · have h2 : bfsM G rest seen < f := by
          unfold bfsM at h ⊢
          simp only [List.length_cons] at h
          omega
        obtain ⟨s, hs⟩ :=
          ih rest seen (fun x hx => hq x (List.mem_cons_of_mem _ hx)) h2
        refine ⟨s, ?_⟩
        simp only [bfsLoop]
        rw [if_pos hc]
        exact hs
      · have hck : cur ∈ (keys G).toFinset \ seen := by
          rw [Finset.mem_sdiff, List.mem_toFinset]
          exact ⟨hq cur (List.mem_cons_self _ _), hc⟩
        have hset : (keys G).toFinset \ insert cur seen =
            ((keys G).toFinset \ seen).erase cur := by
          ext x
          simp only [Finset.mem_sdiff, Finset.mem_erase, Finset.mem_insert]
          tauto
        have hsum : (((keys G).toFinset \ insert cur seen).sum
              (fun v => 1 + degree G v)) + (1 + degree G cur) =
            (((keys G).toFinset \ seen).sum (fun v => 1 + degree G v)) := by
          rw [hset]
          exact Finset.sum_erase_add _ _ hck
        have h2 : bfsM G (rest ++ nbr G cur) (insert cur seen) < f := by
          unfold bfsM at h ⊢
          simp only [List.length_cons] at h
          rw [List.length_append]
          have hd : (nbr G cur).length = degree G cur := rfl
          omega
        have hq2 : ∀ x ∈ rest ++ nbr G cur, x ∈ keys G := by
          intro x hx
          rcases List.mem_append.mp hx with hx2 | hx2
          · exact hq x (List.mem_cons_of_mem _ hx2)
          · exact hwf.nbr_sub_keys hx2
        obtain ⟨s, hs⟩ := ih (rest ++ nbr G cur) (insert cur seen) hq2 h2
        refine ⟨s, ?_⟩
        simp only [bfsLoop]
        rw [if_neg hc]
        exact hs

/-- Whatever is seen or queued ends up in the final seen set. -/
theorem bfs_subset {G : Graph} :
    ∀ fuel queue seen s, bfsLoop G fuel queue seen = some s →
      seen ⊆ s ∧ ∀ x ∈ queue, x ∈ s := by
  intro fuel
  induction fuel with
  | zero => intro queue seen s h; simp [bfsLoop] at h
  | succ f ih =>
    intro queue seen s h
    cases queue with
    | nil =>
      simp only [bfsLoop, Option.some.injEq] at h
      subst h
      exact ⟨Finset.Subset.refl _, by simp⟩
    | cons cur rest =>
      by_cases hc : cur ∈ seen
      · simp only [bfsLoop] at h
        rw [if_pos hc] at h
        obtain ⟨h1, h2⟩ := ih rest seen s h
        refine ⟨h1, ?_⟩
        intro x hx
        rcases List.mem_cons.mp hx with rfl | hx2
        · exact h1 hc
        · exact h2 x hx2
      · simp only [bfsLoop] at h
        rw [if_neg hc] at h
        obtain ⟨h1, h2⟩ := ih _ _ s h
        refine ⟨fun x hx => h1 (Finset.mem_insert_of_mem hx), ?_⟩
        intro x hx
        rcases List.mem_cons.mp hx with rfl | hx2
        · exact h1 (Finset.mem_insert_self _ _)
        · exact h2 x (List.mem_append_left _ hx2)

/-- The final seen set is closed under adjacency. -/
theorem bfs_closed {G : Graph} :
    ∀ fuel queue seen s, bfsLoop G fuel queue seen = some s →
      (∀ x ∈ seen, ∀ y ∈ nbr G x, y ∈ seen ∨ y ∈ queue) →
      ∀ x ∈ s, ∀ y ∈ nbr G x, y ∈ s := by
  intro fuel
  induction fuel with
  | zero => intro queue seen s h; simp [bfsLoop] at h
  | succ f ih =>
    intro queue seen s h hinv
    cases queue with
    | nil =>
      simp only [bfsLoop, Option.some.injEq] at h
      subst h
      intro x hx y hy
      rcases hinv x hx y hy with h1 | h1
      · exact h1
      · simp at h1
    | cons cur rest =>
      by_cases hc : cur ∈ seen
      · simp only [bfsLoop] at h
        rw [if_pos hc] at h
        refine ih rest seen s h ?_
        intro x hx y hy
        rcases hinv x hx y hy with h1 | h1
        · exact Or.inl h1
        · rcases List.mem_cons.mp h1 with rfl | h2
          · exact Or.inl hc
          · exact Or.inr h2
      · simp only [bfsLoop] at h
        rw [if_neg hc] at h
        refine ih _ _ s h ?_
        intro x hx y hy
        rcases Finset.mem_insert.mp hx with rfl | hx2
        · exact Or.inr (List.mem_append_right _ hy)
        · rcases hinv x hx2 y hy with h1 | h1
          · exact Or.inl (Finset.mem_insert_of_mem h1)
          · rcases List.mem_cons.mp h1 with rfl | h2
            · exact Or.inl (Finset.mem_insert_self _ _)
            · exact Or.inr (List.mem_append_left _ h2)

/-- Everything the search marks is reachable from the root. -/
theorem bfs_sound {G : Graph} {u : Nat} :
    ∀ fuel queue seen s, bfsLoop G fuel queue seen = some s →
      (∀ x ∈ seen, ReachG G u x) → (∀ x ∈ queue, ReachG G u x) →
      ∀ x ∈ s, ReachG G u x := by
  intro fuel
  induction fuel with
  | zero => intro queue seen s h; simp [bfsLoop] at h
  | succ f ih =>
    intro queue seen s h hseen hq
    cases queue with
    | nil =>
      simp only [bfsLoop, Option.some.injEq] at h
      subst h
      exact hseen
    | cons cur rest =>
      by_cases hc : cur ∈ seen
      · simp only [bfsLoop] at h
        rw [if_pos hc] at h
        exact ih rest seen s h hseen
          (fun x hx => hq x (List.mem_cons_of_mem _ hx))
      · simp only [bfsLoop] at h
        rw [if_neg hc] at h
        refine ih _ _ s h ?_ ?_
        · intro x hx
          rcases Finset.mem_insert.mp hx with rfl | hx2
          · exact hq x (List.mem_cons_self _ _)
          · exact hseen x hx2
        · intro x hx
          rcases List.mem_append.mp hx with hx2 | hx2
          · exact hq x (List.mem_cons_of_mem _ hx2)
          · exact Relation.ReflTransGen.tail
              (hq cur (List.mem_cons_self _ _)) hx2

/-- Everything reachable from the root is marked. -/
theorem bfs_complete {G : Graph} {fuel : Nat} {u : Nat} {s : Finset Nat}
    (h : bfsLoop G fuel [u] ∅ = some s) :
    ∀ x, ReachG G u x → x ∈ s := by
  have hu : u ∈ s := (bfs_subset fuel [u] ∅ s h).2 u (List.mem_cons_self _ _)
  have hcl : ∀ x ∈ s, ∀ y ∈ nbr G x, y ∈ s :=
    bfs_closed fuel [u] ∅ s h (by intro x hx; simp at hx)
  intro x hx
  induction hx with
  | refl => exact hu
  | tail _ hbc ih => exact hcl _ ih _ hbc

/-- Any vertex reachable from a positive-degree vertex has positive
degree itself (by symmetry of the adjacency lists). -/
theorem reach_mem_posDeg {G : Graph} (hwf : wfB G) {u x : Nat}
    (hu : u ∈ posDeg G) (hx : ReachG G u x) : x ∈ posDeg G := by
  rcases Relation.ReflTransGen.cases_tail hx with rfl | ⟨w, _, hwx⟩
  · exact hu
  · have hxw : w ∈ nbr G x := hwf.symm.mp hwx
    have hxk : x ∈ keys G := hwf.nbr_sub_keys hwx
    rw [posDeg, List.mem_filter]
    refine ⟨hxk, ?_⟩
    simp only [decide_eq_true_eq]
    rw [degree]
    exact List.length_pos.mpr (List.ne_nil_of_mem hxw)

/-- all_positive_degree_vertices_connected returns True exactly when every
positive-degree vertex is reachable from the first one. -/
theorem apdvc_iff {G : Graph} (hwf : wfB G) {u : Nat} {tl : List Nat}
    (hpd : posDeg G = u :: tl) :
    (apdvc G = some true ↔ ∀ x ∈ posDeg G, ReachG G u x) := by
  have hu_pd : u ∈ posDeg G := by rw [hpd]; exact List.mem_cons_self _ _
  have hu_keys : u ∈ keys G := (List.mem_filter.mp hu_pd).1
  have hfuel : bfsM G [u] ∅ < bfsFuel G := by
    unfold bfsM bfsFuel
    rw [Finset.sdiff_empty, sum_one_add_degree hwf]
    simp only [List.length_singleton]
    omega
  obtain ⟨s, hs⟩ := bfs_terminates hwf (bfsFuel G) [u] ∅
    (fun x hx => by
      rcases List.mem_singleton.mp hx with rfl
      exact hu_keys) hfuel
  have hsound : ∀ x ∈ s, ReachG G u x :=
    bfs_sound (bfsFuel G) [u] ∅ s hs (by intro x hx; simp at hx)
      (fun x hx => by
        rcases List.mem_singleton.mp hx with rfl
        exact Relation.ReflTransGen.refl)
  have hsub : ∀ x ∈ s, x ∈ posDeg G :=
    fun x hx => reach_mem_posDeg hwf hu_pd (hsound x hx)
  have hnd : (posDeg G).Nodup := hwf.1.filter _
  have hcardF : (posDeg G).toFinset.card = (posDeg G).length :=
    List.toFinset_card_of_nodup hnd
  have hres : apdvc G = some (decide (s.card = (posDeg G).length)) := by
    unfold apdvc
    simp only [hpd, hs]
  constructor
  · intro htrue
    rw [hres] at htrue
    simp only [Option.some.injEq, decide_eq_true_eq] at htrue
    have hsubF : s ⊆ (posDeg G).toFinset :=
      fun x hx => List.mem_toFinset.mpr (hsub x hx)
    have heq : s = (posDeg G).toFinset :=
      Finset.eq_of_subset_of_card_le hsubF (by omega)
    intro x hx
    exact hsound x (heq ▸ List.mem_toFinset.mpr hx)
  · intro hr
    have hsupF : (posDeg G).toFinset ⊆ s := fun x hx =>
      bfs_complete hs x (hr x (List.mem_toFinset.mp hx))
    have hsubF : s ⊆ (posDeg G).toFinset :=
      fun x hx => List.mem_toFinset.mpr (hsub x hx)
    have heq : s = (posDeg G).toFinset :=
      Finset.Subset.antisymm hsubF hsupF
    rw [hres, heq, hcardF]
    simp

/- ==================================================================
The claims.
================================================================== -/

/-- C1 (counterexample): the triangle on vertices 1, 2, 3 is Eulerian,
yet Eulerian_circuit_1 and Eulerian_circuit_3 raise on the missing start
vertex 0, and Eulerian_circuit_2 returns the index sequence 0,2,1,0 whose
consecutive pairs are not the edge set of the graph.  So the claim does
not hold for every Eulerian graph. -/
theorem c1_cex : isEulerianB tri123 = some true ∧
    euler1 tri123 = R1.exn tri123 ∧
    euler3 tri123 = R1.exn tri123 ∧
    euler2 tri123 = R1.ret tri123 (some [0, 2, 1, 0]) ∧
    ¬ goodCircuit (edges tri123) [0, 2, 1, 0] := by
  refine ⟨by decide, by decide, by decide, by decide, by decide⟩

/-- C1 (amended): for an Eulerian graph that contains the hard-coded
start vertex 0, Eulerian_circuit_1 and Eulerian_circuit_3 return a closed
circuit of length number-of-edges + 1 whose consecutive pairs are exactly
the edge set; Eulerian_circuit_2 does so when the nodes in matrix order
are exactly 0..n-1 (so that its matrix indices are the node labels). -/
theorem c1_amended (G : Graph) (hwf : wfB G)
    (heu : isEulerianB G = some true) :
    (0 ∈ keys G →
      (∃ GF c, euler1 G = R1.ret GF (some c) ∧ goodCircuit (edges G) c) ∧
      (∃ c, euler3 G = R1.ret G (some c) ∧ goodCircuit (edges G) c)) ∧
    (keys G = List.range (keys G).length →
      ∃ c, euler2 G = R1.ret G (some c) ∧ goodCircuit (edges G) c) := by
  constructor
  · intro h0
    constructor
    · obtain ⟨GF, c, h1, _, h3, _, _⟩ := euler1_correct hwf heu h0
      exact ⟨GF, c, h1, h3⟩
    · obtain ⟨c, h1, h2, _, _⟩ := euler3_correct hwf heu h0
      exact ⟨c, h1, h2⟩
  · intro hk
    obtain ⟨c, h1, h2, _, _⟩ := euler2_range_correct hwf heu hk
    exact ⟨c, h1, h2⟩

/-- C1 witness: the amended claim instantiated on the triangle 0,1,2. -/
theorem c1_amended_witness :
    wfB tri012 ∧ isEulerianB tri012 = some true ∧
    ((0 ∈ keys tri012 →
      (∃ GF c, euler1 tri012 = R1.ret GF (some c) ∧
        goodCircuit (edges tri012) c) ∧
      (∃ c, euler3 tri012 = R1.ret tri012 (some c) ∧
        goodCircuit (edges tri012) c)) ∧
    (keys tri012 = List.range (keys tri012).length →
      ∃ c, euler2 tri012 = R1.ret tri012 (some c) ∧
        goodCircuit (edges tri012) c)) :=
  ⟨by decide, by decide, c1_amended tri012 (by decide) (by decide)⟩

/-- C2: on a graph with at least one positive-degree vertex,
all_positive_degree_vertices_connected returns True exactly when all
positive-degree vertices lie in one connected component (zero-degree
vertices never counted, since posDeg excludes them). -/
theorem c2_connectivity (G : Graph) (hwf : wfB G) (hne : posDeg G ≠ []) :
    (apdvc G = some true ↔
      ∀ x ∈ posDeg G, ∀ y ∈ posDeg G, ReachG G x y) := by
  rcases hpd : posDeg G with _ | ⟨u, tl⟩
  · exact absurd hpd hne
  · have hiff := apdvc_iff hwf hpd
    rw [hpd] at hiff
    have hu : u ∈ u :: tl := List.mem_cons_self _ _
    constructor
    · intro ht x hx y hy
      exact (reachG_symm hwf (hiff.mp ht x hx)).trans (hiff.mp ht y hy)
    · intro hall
      exact hiff.mpr (fun x hx => hall u hu x hx)

/-- C2 witness: the equivalence instantiated on the single-edge path 0-1. -/
theorem c2_witness : wfB path01 ∧ posDeg path01 ≠ [] ∧
    (apdvc path01 = some true ↔
      ∀ x ∈ posDeg path01, ∀ y ∈ posDeg path01, ReachG path01 x y) :=
  ⟨by decide, by decide, c2_connectivity path01 (by decide) (by decide)⟩

/-- C3 (counterexample): on the Eulerian triangle 1,2,3 the first builder
raises instead of returning, and the graph at that point still has all
its edges, so it is not left with zero edges after the call. -/
theorem c3_cex : isEulerianB tri123 = some true ∧
    euler1 tri123 = R1.exn tri123 ∧ edges tri123 ≠ ∅ := by
  refine ⟨by decide, by decide, by decide⟩

/-- C3 (amended): for an Eulerian graph containing vertex 0,
Eulerian_circuit_1 empties the input graph while Eulerian_circuit_2 and
Eulerian_circuit_3 return with the input graph unchanged. -/
theorem c3_amended (G : Graph) (hwf : wfB G)
    (heu : isEulerianB G = some true) (h0 : 0 ∈ keys G) :
    (∃ GF c, euler1 G = R1.ret GF (some c) ∧ edges GF = ∅) ∧
    (∃ c, euler2 G = R1.ret G (some c)) ∧
    (∃ c, euler3 G = R1.ret G (some c)) := by
  refine ⟨?_, ?_, ?_⟩
  · obtain ⟨GF, c, h1, h2, _, _, _⟩ := euler1_correct hwf heu h0
    exact ⟨GF, c, h1, h2⟩
  · obtain ⟨c, h1, _, _⟩ := euler2_start hwf heu
    exact ⟨c, h1⟩
  · obtain ⟨c, h1, _, _, _⟩ := euler3_correct hwf heu h0
    exact ⟨c, h1⟩

/-- C3 witness: the amended frame property on the triangle 0,1,2. -/
theorem c3_amended_witness :
    wfB tri012 ∧ isEulerianB tri012 = some true ∧ 0 ∈ keys tri012 ∧
    ((∃ GF c, euler1 tri012 = R1.ret GF (some c) ∧ edges GF = ∅) ∧
    (∃ c, euler2 tri012 = R1.ret tri012 (some c)) ∧
    (∃ c, euler3 tri012 = R1.ret tri012 (some c))) :=
  ⟨by decide, by decide, by decide,
    c3_amended tri012 (by decide) (by decide) (by decide)⟩

/-- C4: when the Eulerian test reports False, every builder returns the
None sentinel with the input graph untouched, before any loop work. -/
theorem c4_not_eulerian (G : Graph) (h : isEulerianB G = some false) :
    euler1 G = R1.ret G none ∧ euler2 G = R1.ret G none ∧
    euler3 G = R1.ret G none :=
  ⟨by simp [euler1, h], by simp [euler2, h], by simp [euler3, h]⟩

/-- C4 witness: the failure semantics on the non-Eulerian path 0-1. -/
theorem c4_witness : isEulerianB path01 = some false ∧
    (euler1 path01 = R1.ret path01 none ∧
     euler2 path01 = R1.ret path01 none ∧
     euler3 path01 = R1.ret path01 none) :=
  ⟨by decide, c4_not_eulerian path01 (by decide)⟩

/-- C5: with no positive-degree vertex the connectivity checker fails
(the indexing pos_deg[0] of the empty list) instead of returning a
boolean; none models that IndexError. -/
theorem c5_no_positive_degree (G : Graph) (h : posDeg G = []) :
    apdvc G = none := by
  simp [apdvc, h]

/-- C5 witness: the failure on the two-isolated-vertex graph. -/
theorem c5_witness : posDeg iso2 = [] ∧ apdvc iso2 = none :=
  ⟨by decide, c5_no_positive_degree iso2 (by decide)⟩

/-- C6 (counterexample): for the graph with edges 0-1, 1-2, 2-3, 3-4,
4-1, 1-5, 5-0 the Eulerian test does not return False, and no builder
returns the None sentinel, contrary to the claim. -/
theorem c6_cex : isEulerianB G3ex ≠ some false ∧
    euler1 G3ex ≠ R1.ret G3ex none ∧
    euler2 G3ex ≠ R1.ret G3ex none ∧
    euler3 G3ex ≠ R1.ret G3ex none := by
  refine ⟨by decide, by decide, by decide, by decide⟩

/-- C6 (amended): that graph is in fact Eulerian (all degrees are even:
0 and 5 have degree 2, 1 has degree 4): the test returns True and each
builder returns an Eulerian circuit of it. -/
theorem c6_amended : isEulerianB G3ex = some true ∧
    euler1 G3ex =
      R1.ret ⟨[(0, []), (1, []), (2, []), (3, []), (4, []), (5, [])]⟩
        (some [0, 1, 2, 3, 4, 1, 5, 0]) ∧
    euler2 G3ex = R1.ret G3ex (some [0, 5, 1, 4, 3, 2, 1, 0]) ∧
    euler3 G3ex = R1.ret G3ex (some [0, 5, 1, 4, 3, 2, 1, 0]) ∧
    goodCircuit (edges G3ex) [0, 1, 2, 3, 4, 1, 5, 0] ∧
    goodCircuit (edges G3ex) [0, 5, 1, 4, 3, 2, 1, 0] := by
  refine ⟨by decide, by decide, by decide, by decide, by decide, by decide⟩

/-- C7: no builder ever exhausts its fuel: each loop iteration either
consumes an unconsumed edge (strictly decreasing) or pops the stack, so
all three builders terminate on every input graph. -/
theorem c7_termination (G : Graph) :
    euler1 G ≠ R1.dnf ∧ euler2 G ≠ R1.dnf ∧ euler3 G ≠ R1.dnf :=
  ⟨euler1_ne_dnf G, euler2_ne_dnf G, euler3_ne_dnf G⟩

/-- C8: on an Eulerian graph Eulerian_circuit_2 returns a sequence of
adjacency-matrix row/column indices: every element is below the number
of nodes, whatever the node labels are. -/
theorem c8_matrix_indices (G : Graph) (hwf : wfB G)
    (heu : isEulerianB G = some true) :
    ∃ c, euler2 G = R1.ret G (some c) ∧ ∀ x ∈ c, x < (keys G).length := by
  obtain ⟨c, hret, _, _⟩ := euler2_start hwf heu
  refine ⟨c, hret, ?_⟩
  simp only [euler2, heu] at hret
  rcases hr : hloop step2 (fuel2 (buildMatrix G)) (buildMatrix G) [0] []
    with _ | M' | ⟨M', c'⟩
  · rw [hr] at hret
    simp at hret
  · rw [hr] at hret
    simp at hret
  · rw [hr] at hret
    have hcc : c' = c := by simpa using hret
    subst hcc
    refine hloop2_bounds (fuel2 (buildMatrix G)) (buildMatrix G) [0] [] M' c'
      (buildMatrix_sq G) ?_ (by intro x hx; simp at hx) hr
    intro x hx
    rcases List.mem_singleton.mp hx with rfl
    exact List.length_pos.mpr (isEulerianB_true heu).1

/-- C8 witness: the index bound on the triangle 0,1,2. -/
theorem c8_witness : wfB tri012 ∧ isEulerianB tri012 = some true ∧
    ∃ c, euler2 tri012 = R1.ret tri012 (some c) ∧
      ∀ x ∈ c, x < (keys tri012).length :=
  ⟨by decide, by decide, c8_matrix_indices tri012 (by decide) (by decide)⟩

/-- C9: on an Eulerian graph containing vertex 0, the circuit of each
builder begins and ends at the hard-coded literal 0. -/
theorem c9_start_zero (G : Graph) (hwf : wfB G)
    (heu : isEulerianB G = some true) (h0 : 0 ∈ keys G) :
    (∃ GF c, euler1 G = R1.ret GF (some c) ∧ c.head? = some 0 ∧
      c.getLast? = some 0) ∧
    (∃ c, euler2 G = R1.ret G (some c) ∧ c.head? = some 0 ∧
      c.getLast? = some 0) ∧
    (∃ c, euler3 G = R1.ret G (some c) ∧ c.head? = some 0 ∧
      c.getLast? = some 0) := by
  refine ⟨?_, ?_, ?_⟩
  · obtain ⟨GF, c, h1, _, _, h4, h5⟩ := euler1_correct hwf heu h0
    exact ⟨GF, c, h1, h4, h5⟩
  · obtain ⟨c, h1, h2, h3⟩ := euler2_start hwf heu
    exact ⟨c, h1, h2, h3⟩
  · obtain ⟨c, h1, _, h3, h4⟩ := euler3_correct hwf heu h0
    exact ⟨c, h1, h3, h4⟩

/-- C9 witness: the start-vertex property on the triangle 0,1,2. -/
theorem c9_witness : wfB tri012 ∧ isEulerianB tri012 = some true ∧
    0 ∈ keys tri012 ∧
    ((∃ GF c, euler1 tri012 = R1.ret GF (some c) ∧ c.head? = some 0 ∧
      c.getLast? = some 0) ∧
    (∃ c, euler2 tri012 = R1.ret tri012 (some c) ∧ c.head? = some 0 ∧
      c.getLast? = some 0) ∧
    (∃ c, euler3 tri012 = R1.ret tri012 (some c) ∧ c.head? = some 0 ∧
      c.getLast? = some 0)) :=
  ⟨by decide, by decide, by decide,
    c9_start_zero tri012 (by decide) (by decide) (by decide)⟩

/-- C10: on an Eulerian graph without a vertex labelled 0,
Eulerian_circuit_3 raises on the neighbour lookup G[0] of the hard-coded
start vertex in its first iteration, rather than returning a circuit or
the None sentinel. -/
theorem c10_euler3_keyerror (G : Graph) (heu : isEulerianB G = some true)
    (h0 : 0 ∉ keys G) : euler3 G = R1.exn G := by
  have hlk : lookup' G.adj 0 = none :=
    lookup'_eq_none.mpr (by simpa [keys] using h0)
  have hfuel : fuel3 G = (2 * (edges G).card + 1) + 1 := rfl
  simp only [euler3, heu, hfuel, hloop, step3, nbr?, hlk]

/-- C10 witness: the KeyError on the Eulerian triangle 1,2,3. -/
theorem c10_witness : isEulerianB tri123 = some true ∧ 0 ∉ keys tri123 ∧
    euler3 tri123 = R1.exn tri123 :=
  ⟨by decide, by decide, c10_euler3_keyerror tri123 (by decide) (by decide)⟩

end EulerVerif
